import Mathlib

/-!
Shallow embedding of the Itanium C++ ABI demangler (src/demangler.py).

The input string is modelled as a cursor holding the remaining suffix of the
raw text as a List Char: every _Cursor operation in the source (accept,
advance, advance_until, match) depends only on raw[pos:], so the suffix is a
faithful representation of the (raw, pos) pair.

Python exceptions are modelled explicitly: each parsing function returns a
PRes Node together with the cursor it left behind.  PRes.fail is the Python
None result, PRes.crash is a raised exception (TypeError / ValueError /
KeyError), and PRes.oof is a fuel-exhaustion marker of the embedding (the
top-level parse supplies fuel that dominates the recursion depth, and all
general theorems are stated for every fuel or conditioned on an ok result,
so oof never stands in for a real outcome).

The mutually recursive grammar productions are embedded as one fuel-indexed
step function run over an explicit call tag (PCall), which Lean compiles by
structural recursion on the fuel so that concrete runs reduce in the kernel.
-/

inductive PRes (α : Type) : Type where
  | ok (a : α)
  | fail
  | crash
  | oof
deriving DecidableEq, Repr

/-- AST nodes of the demangler.  One inductive covers the three Python node
classes: Node (kind/value pairs), QualNode (kind cv_qual with a qualifier
set) and CastNode (kind literal with a type).  The constructor names are the
kind strings of the source.  function holds the name and argument list that
the source stores as a tuple in value.  cv_qual's qualifier set is modelled
as the list built in _handle_cv's fixed insertion order (restrict, volatile,
const); Python set equality is content equality, and _handle_cv is the only
constructor site, so two equal qualifier sets always yield equal lists.
pynone models the Python value None leaking into a node, which happens when
_handle_cv or _handle_indirect is applied to the None result of a failed
nested-name body parse. -/
inductive Node : Type where
  | name (value : String)
  | qual_name (value : List Node)
  | tpl_args (value : List Node)
  | ctor (value : String)
  | dtor (value : String)
  | operator (value : String)
  | pointer (value : Node)
  | lvalue (value : Node)
  | rvalue (value : Node)
  | cv_qual (value : Node) (qual : List String)
  | literal (value : String) (ty : Node)
  | function (fname : Node) (args : List Node)
  | tpl_param (value : Int)
  | vtable (value : Node)
  | vtt (value : Node)
  | typeinfo (value : Node)
  | typeinfo_name (value : Node)
  | pynone

/-- Cursor.accept: consume the literal delim if it is a prefix of the
remaining text, otherwise leave the cursor unchanged (returns none). -/
def cursorAccept (delim : List Char) (c : List Char) : Option (List Char) :=
  if delim.isPrefixOf c then some (c.drop delim.length) else none

/-- Cursor.advance: take exactly n characters, failing (with no movement)
when fewer than n remain. -/
def cursorAdvance (n : Nat) (c : List Char) : Option (List Char × List Char) :=
  if c.length < n then none else some (c.take n, c.drop n)

/-- Cursor.advance_until for a one-character delimiter (the source only uses
the delimiters E and underscore): the text strictly before the first
occurrence, and the remainder past the delimiter; none (cursor unchanged)
when the delimiter never occurs. -/
def cursorAdvanceUntil (delim : Char) : List Char → Option (List Char × List Char)
  | [] => none
  | ch :: cs =>
    if ch = delim then some ([], cs)
    else
      match cursorAdvanceUntil delim cs with
      | none => none
      | some (pre, post) => some (ch :: pre, post)

def _ctor_dtor_map : String → Option String
  | "C1" => some "complete"
  | "C2" => some "base"
  | "C3" => some "allocating"
  | "D0" => some "deleting"
  | "D1" => some "complete"
  | "D2" => some "base"
  | _ => none

def _std_names : String → Option (List Node)
  | "St" => some [Node.name "std"]
  | "Sa" => some [Node.name "std", Node.name "allocator"]
  | "Sb" => some [Node.name "std", Node.name "basic_string"]
  | "Ss" => some [Node.name "std", Node.name "string"]
  | "Si" => some [Node.name "std", Node.name "istream"]
  | "So" => some [Node.name "std", Node.name "ostream"]
  | "Sd" => some [Node.name "std", Node.name "iostream"]
  | _ => none

def _operators : String → Option String
  | "nw" => some "new"
  | "na" => some "new[]"
  | "dl" => some "delete"
  | "da" => some "delete[]"
  | "ps" => some "+"
  | "ng" => some "-"
  | "ad" => some "&"
  | "de" => some "*"
  | "co" => some "~"
  | "pl" => some "+"
  | "mi" => some "-"
  | "ml" => some "*"
  | "dv" => some "/"
  | "rm" => some "%"
  | "an" => some "&"
  | "or" => some "|"
  | "eo" => some "^"
  | "aS" => some "="
  | "pL" => some "+="
  | "mI" => some "-="
  | "mL" => some "*="
  | "dV" => some "/="
  | "rM" => some "%="
  | "aN" => some "&="
  | "oR" => some "|="
  | "eO" => some "^="
  | "ls" => some "<<"
  | "rs" => some ">>"
  | "lS" => some "<<="
  | "rS" => some ">>="
  | "eq" => some "=="
  | "ne" => some "!="
  | "lt" => some "<"
  | "gt" => some ">"
  | "le" => some "<="
  | "ge" => some ">="
  | "nt" => some "!"
  | "aa" => some "&&"
  | "oo" => some "||"
  | "pp" => some "++"
  | "mm" => some "--"
  | "cm" => some ","
  | "pm" => some "->*"
  | "pt" => some "->"
  | "cl" => some "()"
  | "ix" => some "[]"
  | "qu" => some "?"
  | _ => none

def _builtin_types : String → Option String
  | "v" => some "void"
  | "w" => some "wchar_t"
  | "b" => some "bool"
  | "c" => some "char"
  | "a" => some "signed char"
  | "h" => some "unsigned char"
  | "s" => some "short"
  | "t" => some "unsigned short"
  | "i" => some "int"
  | "j" => some "unsigned int"
  | "l" => some "long"
  | "m" => some "unsigned long"
  | "x" => some "long long"
  | "y" => some "unsigned long long"
  | "n" => some "__int128"
  | "o" => some "unsigned __int128"
  | "f" => some "float"
  | "d" => some "double"
  | "e" => some "__float80"
  | "g" => some "__float128"
  | "z" => some "..."
  | "Di" => some "char32_t"
  | "Ds" => some "char16_t"
  | "Da" => some "auto"
  | _ => none

/-- Characters matched by the cv-qualifier character class [rVK]. -/
def isRVKChar (ch : Char) : Bool := ch == 'r' || ch == 'V' || ch == 'K'

/-- The qualifier-set construction of _handle_cv: membership tests on the
matched qualifier letters, adding restrict, volatile, const in that fixed
order.  The resulting list stands for the Python set (see Node). -/
def cvQualifierSet (qualifiers : List Char) : List String :=
  (if 'r' ∈ qualifiers then ["restrict"] else []) ++
    (if 'V' ∈ qualifiers then ["volatile"] else []) ++
      (if 'K' ∈ qualifiers then ["const"] else [])

def _handle_cv (qualifiers : List Char) (node : Node) : Node :=
  match cvQualifierSet qualifiers with
  | [] => node
  | q :: qs => Node.cv_qual node (q :: qs)

def _handle_indirect (qualifier : List Char) (node : Node) : Node :=
  match qualifier with
  | ['P'] => Node.pointer node
  | ['R'] => Node.lvalue node
  | ['O'] => Node.rvalue node
  | _ => node

/-- The decimal value of a digit string, as Python int() computes it for the
all-digit text matched by the source_name group. -/
def digitsToNat (s : List Char) : Nat :=
  s.foldl (fun acc ch => acc * 10 + (ch.toNat - '0'.toNat)) 0

/-- The base-36 value of one character, when it is a valid base-36 digit
(ASCII digit or letter, either case). -/
def charB36Val (ch : Char) : Option Nat :=
  if ch.isDigit then some (ch.toNat - '0'.toNat)
  else if ch.isLower then some (ch.toNat - 'a'.toNat + 10)
  else if ch.isUpper then some (ch.toNat - 'A'.toNat + 10)
  else none

def isB36Digit (ch : Char) : Bool := (charB36Val ch).isSome

def b36Val (s : List Char) : Nat :=
  s.foldl (fun acc ch => acc * 36 + (charB36Val ch).getD 0) 0

/-- Python int(text, 36) as used by the template-parameter production, on the
ASCII inputs in scope: surrounding whitespace is stripped, then an optional
sign is followed by a nonempty run of base-36 digits; anything else raises
ValueError (crash).  Digit-group underscores cannot occur here because the
argument is text read strictly before the first underscore. -/
def pyInt36 (s : List Char) : PRes Int :=
  match ((s.dropWhile Char.isWhitespace).reverse.dropWhile Char.isWhitespace).reverse with
  | [] => PRes.crash
  | ch :: ds =>
    if ch = '+' then
      if ds ≠ [] ∧ ds.all isB36Digit then PRes.ok (b36Val ds) else PRes.crash
    else if ch = '-' then
      if ds ≠ [] ∧ ds.all isB36Digit then PRes.ok (-(b36Val ds : Int)) else PRes.crash
    else if (ch :: ds).all isB36Digit then PRes.ok (b36Val (ch :: ds))
    else PRes.crash

/-- The source_name production body: int(length) characters are consumed
exactly, or the production fails with the cursor unmoved (advance moved
nothing). -/
def _parse_source_name (length : List Char) (c : List Char) : PRes Node × List Char :=
  match cursorAdvance (digitsToNat length) c with
  | none => (PRes.fail, c)
  | some (nm, c2) => (PRes.ok (Node.name (String.mk nm)), c2)

/-- Result of matching _NAME_RE at the cursor: which alternative matched and
what its groups captured.  Alternatives are listed in the order of the
pattern; their leading characters are pairwise disjoint, so first-match
equals any-match.  std_pfx is the std_prefix group (the name is shortened
for the embedding). -/
inductive NameTok : Type where
  | source_name (digits : List Char)
  | ctor_name (code : String)
  | dtor_name (code : String)
  | std_name (code : String)
  | operator_name (code : String)
  | std_pfx
  | nested_name (cv : List Char) (ref : List Char)
  | template_args

/-- Anchored match of _NAME_RE (ASCII input per the spec, so the digit class
is 0-9).  Returns the token and the cursor past the matched span. -/
def matchName (c : List Char) : Option (NameTok × List Char) :=
  if (c.takeWhile Char.isDigit) ≠ [] then
    some (NameTok.source_name (c.takeWhile Char.isDigit), c.dropWhile Char.isDigit)
  else
    match c with
    | 'C' :: d :: rest =>
      if d == '1' || d == '2' || d == '3' then
        some (NameTok.ctor_name (String.mk ['C', d]), rest)
      else none
    | 'D' :: d :: rest =>
      if d == '0' || d == '1' || d == '2' then
        some (NameTok.dtor_name (String.mk ['D', d]), rest)
      else none
    | 'S' :: d :: rest =>
      if d == 'a' || d == 'b' || d == 's' || d == 'i' || d == 'o' || d == 'd' then
        some (NameTok.std_name (String.mk ['S', d]), rest)
      else if d == 't' then some (NameTok.std_pfx, rest)
      else none
    | 'N' :: rest =>
      let cv := rest.takeWhile isRVKChar
      let rest2 := rest.dropWhile isRVKChar
      match rest2 with
      | rch :: rest3 =>
        if rch == 'R' || rch == 'O' then some (NameTok.nested_name cv [rch], rest3)
        else some (NameTok.nested_name cv [], rest2)
      | [] => some (NameTok.nested_name cv [], [])
    | 'I' :: rest => some (NameTok.template_args, rest)
    | a :: b :: rest =>
      match _operators (String.mk [a, b]) with
      | some _ => some (NameTok.operator_name (String.mk [a, b]), rest)
      | none => none
    | _ => none

/-- Result of matching _TYPE_RE at the cursor. -/
inductive TypeTok : Type where
  | builtin_type (code : String)
  | qualified_type (q : List Char)
  | template_param
  | indirect_type (q : Char)
  | expr_primary

/-- Single-character alternatives of the builtin_type group. -/
def isBuiltinSingle (ch : Char) : Bool :=
  ch == 'v' || ch == 'w' || ch == 'b' || ch == 'c' || ch == 'a' || ch == 'h' ||
    ch == 's' || ch == 't' || ch == 'i' || ch == 'j' || ch == 'l' || ch == 'm' ||
      ch == 'x' || ch == 'y' || ch == 'n' || ch == 'o' || ch == 'f' || ch == 'd' ||
        ch == 'e' || ch == 'g' || ch == 'z'

/-- Second characters of the two-character D-prefixed builtin_type
alternatives (Dd De Df Dh DF Di Ds Da Dc Dn). -/
def isBuiltinDSecond (ch : Char) : Bool :=
  ch == 'd' || ch == 'e' || ch == 'f' || ch == 'h' || ch == 'F' || ch == 'i' ||
    ch == 's' || ch == 'a' || ch == 'c' || ch == 'n'

/-- Anchored match of _TYPE_RE.  The expr_primary alternative is a pure
lookahead for L and consumes nothing. -/
def matchType (c : List Char) : Option (TypeTok × List Char) :=
  match c with
  | [] => none
  | ch :: rest =>
    if isBuiltinSingle ch then some (TypeTok.builtin_type (String.mk [ch]), rest)
    else if ch == 'D' then
      match rest with
      | d :: rest2 =>
        if isBuiltinDSecond d then some (TypeTok.builtin_type (String.mk ['D', d]), rest2)
        else none
      | [] => none
    else if isRVKChar ch then
      some (TypeTok.qualified_type ((ch :: rest).takeWhile isRVKChar),
        (ch :: rest).dropWhile isRVKChar)
    else if ch == 'T' then some (TypeTok.template_param, rest)
    else if ch == 'P' || ch == 'R' || ch == 'O' then some (TypeTok.indirect_type ch, rest)
    else if ch == 'L' then some (TypeTok.expr_primary, ch :: rest)
    else none

/-- Anchored match of _EXPR_PRIMARY_RE: true means the mangled_name
alternative L followed by lookahead _Z (only L is consumed), false the
literal alternative L. -/
def matchExprPrimary : List Char → Option (Bool × List Char)
  | 'L' :: '_' :: 'Z' :: rest => some (true, '_' :: 'Z' :: rest)
  | 'L' :: rest => some (false, rest)
  | _ => none

/-- Anchored match of _SPECIAL_RE: T followed by one of V T I S, returning
the kind character. -/
def matchSpecial : List Char → Option (Char × List Char)
  | 'T' :: k :: rest =>
    if k == 'V' || k == 'T' || k == 'I' || k == 'S' then some (k, rest) else none
  | _ => none

/-- Anchored match of _MANGLED_NAME_RE: the literal prefix _Z. -/
def matchMangled : List Char → Option (List Char)
  | '_' :: 'Z' :: rest => some rest
  | _ => none

/-- Call tags for the mutually recursive productions.  pfold is the tail of
_parse_name that folds a following template-argument list into a qual_name
(lines 349-353 of the source); puntil_name and puntil_type are
_parse_until_end specialised to its two call sites (collecting qual_name
elements with _parse_name, and tpl_args elements with _parse_type);
pargs is the argument-type loop of _parse_mangled_name. -/
inductive PCall : Type where
  | pname (c : List Char)
  | ptype (c : List Char)
  | pexpr (c : List Char)
  | pspecial (c : List Char)
  | pmangled (c : List Char)
  | pfold (node : Node) (c : List Char)
  | puntil_name (c : List Char) (acc : List Node)
  | puntil_type (c : List Char) (acc : List Node)
  | pargs (nm : Node) (c : List Char) (acc : List Node)

/-- The cursor component of a call. -/
def PCall.cur : PCall → List Char
  | PCall.pname c => c
  | PCall.ptype c => c
  | PCall.pexpr c => c
  | PCall.pspecial c => c
  | PCall.pmangled c => c
  | PCall.pfold _ c => c
  | PCall.puntil_name c _ => c
  | PCall.puntil_type c _ => c
  | PCall.pargs _ c _ => c

/-- One fuel-indexed step function covering all productions.  Every
recursive call uses the fuel predecessor, so the definition is structural
and concrete runs reduce in the kernel. -/
def run (fuel : Nat) (k : PCall) : PRes Node × List Char :=
  match fuel with
  | 0 => (PRes.oof, k.cur)
  | Nat.succ fuel =>
    match k with
    | PCall.pname c =>
      match matchName c with
      | none => (PRes.fail, c)
      | some (tok, c1) =>
        match tok with
        | NameTok.source_name digits =>
          match _parse_source_name digits c1 with
          | (PRes.ok node, c2) => run fuel (PCall.pfold node c2)
          | (r, c2) => (r, c2)
        | NameTok.ctor_name code =>
          match _ctor_dtor_map code with
          | some v => run fuel (PCall.pfold (Node.ctor v) c1)
          | none => (PRes.crash, c1)
        | NameTok.dtor_name code =>
          match _ctor_dtor_map code with
          | some v => run fuel (PCall.pfold (Node.dtor v) c1)
          | none => (PRes.crash, c1)
        | NameTok.std_name code =>
          match _std_names code with
          | some vs => run fuel (PCall.pfold (Node.qual_name vs) c1)
          | none => (PRes.crash, c1)
        | NameTok.operator_name code =>
          match _operators code with
          | some v => run fuel (PCall.pfold (Node.operator v) c1)
          | none => (PRes.crash, c1)
        | NameTok.std_pfx =>
          match run fuel (PCall.pname c1) with
          | (PRes.ok nm, c2) =>
            match nm with
            | Node.qual_name vs => run fuel (PCall.pfold (Node.qual_name (Node.name "std" :: vs)) c2)
            | other => run fuel (PCall.pfold (Node.qual_name [Node.name "std", other]) c2)
          | (r, c2) => (r, c2)
        | NameTok.nested_name cv ref =>
          match run fuel (PCall.puntil_name c1 []) with
          | (PRes.ok nd, c2) => run fuel (PCall.pfold (_handle_indirect ref (_handle_cv cv nd)) c2)
          | (PRes.fail, c2) =>
            match _handle_indirect ref (_handle_cv cv Node.pynone) with
            | Node.pynone => (PRes.fail, c2)
            | w => run fuel (PCall.pfold w c2)
          | (r, c2) => (r, c2)
        | NameTok.template_args =>
          match run fuel (PCall.puntil_type c1 []) with
          | (PRes.ok nd, c2) => run fuel (PCall.pfold nd c2)
          | (r, c2) => (r, c2)
    | PCall.ptype c =>
      match matchType c with
      | none => run fuel (PCall.pname c)
      | some (tok, c1) =>
        match tok with
        | TypeTok.builtin_type code =>
          match _builtin_types code with
          | some v => (PRes.ok (Node.name v), c1)
          | none => (PRes.crash, c1)
        | TypeTok.qualified_type q =>
          match run fuel (PCall.ptype c1) with
          | (PRes.ok ty, c2) => (PRes.ok (_handle_cv q ty), c2)
          | (r, c2) => (r, c2)
        | TypeTok.template_param =>
          match cursorAdvanceUntil '_' c1 with
          | none => (PRes.crash, c1)
          | some (seq, c2) =>
            if seq = [] then (PRes.ok (Node.tpl_param 0), c2)
            else
              match pyInt36 seq with
              | PRes.ok v => (PRes.ok (Node.tpl_param (1 + v)), c2)
              | _ => (PRes.crash, c2)
        | TypeTok.indirect_type q =>
          match run fuel (PCall.ptype c1) with
          | (PRes.ok ty, c2) => (PRes.ok (_handle_indirect [q] ty), c2)
          | (r, c2) => (r, c2)
        | TypeTok.expr_primary => run fuel (PCall.pexpr c1)
    | PCall.pexpr c =>
      match matchExprPrimary c with
      | none => (PRes.fail, c)
      | some (isMangled, c1) =>
        if isMangled then
          match cursorAdvanceUntil 'E' c1 with
          | none => (PRes.crash, c1)
          | some (sub, c2) => ((run fuel (PCall.pmangled sub)).1, c2)
        else
          match run fuel (PCall.ptype c1) with
          | (PRes.ok ty, c2) =>
            match cursorAdvanceUntil 'E' c2 with
            | none => (PRes.fail, c2)
            | some (v, c3) => (PRes.ok (Node.literal (String.mk v) ty), c3)
          | (r, c2) => (r, c2)
    | PCall.pspecial c =>
      match matchSpecial c with
      | none => (PRes.fail, c)
      | some (kindc, c1) =>
        match run fuel (PCall.ptype c1) with
        | (PRes.ok nm, c2) =>
          (PRes.ok
            (if kindc = 'V' then Node.vtable nm
             else if kindc = 'T' then Node.vtt nm
             else if kindc = 'I' then Node.typeinfo nm
             else Node.typeinfo_name nm), c2)
        | (r, c2) => (r, c2)
    | PCall.pmangled c =>
      match matchMangled c with
      | none => (PRes.fail, c)
      | some c1 =>
        match run fuel (PCall.pspecial c1) with
        | (PRes.ok sp, c2) => (PRes.ok sp, c2)
        | (PRes.fail, c2) =>
          match run fuel (PCall.pname c2) with
          | (PRes.ok nm, c3) => run fuel (PCall.pargs nm c3 [])
          | (r, c3) => (r, c3)
        | (r, c2) => (r, c2)
    | PCall.pfold node c =>
      match cursorAccept ['I'] c with
      | none => (PRes.ok node, c)
      | some c2 =>
        match run fuel (PCall.puntil_type c2 []) with
        | (PRes.ok targs, c3) => (PRes.ok (Node.qual_name [node, targs]), c3)
        | (r, c3) => (r, c3)
    | PCall.puntil_name c acc =>
      match cursorAccept ['E'] c with
      | some c2 => (PRes.ok (Node.qual_name acc), c2)
      | none =>
        match run fuel (PCall.pname c) with
        | (PRes.ok nd, c2) =>
          match c2 with
          | [] => (PRes.fail, c2)
          | _ => run fuel (PCall.puntil_name c2 (acc ++ [nd]))
        | (r, c2) => (r, c2)
    | PCall.puntil_type c acc =>
      match cursorAccept ['E'] c with
      | some c2 => (PRes.ok (Node.tpl_args acc), c2)
      | none =>
        match run fuel (PCall.ptype c) with
        | (PRes.ok nd, c2) =>
          match c2 with
          | [] => (PRes.fail, c2)
          | _ => run fuel (PCall.puntil_type c2 (acc ++ [nd]))
        | (r, c2) => (r, c2)
    | PCall.pargs nm c acc =>
      match c with
      | [] =>
        match acc with
        | [] => (PRes.ok nm, [])
        | a :: as_ => (PRes.ok (Node.function nm (a :: as_)), [])
      | _ :: _ =>
        match run fuel (PCall.ptype c) with
        | (PRes.ok t, c2) => run fuel (PCall.pargs nm c2 (acc ++ [t]))
        | (r, c2) => (r, c2)

def _parse_name (fuel : Nat) (c : List Char) : PRes Node × List Char :=
  run fuel (PCall.pname c)

def _parse_type (fuel : Nat) (c : List Char) : PRes Node × List Char :=
  run fuel (PCall.ptype c)

def _parse_expr_primary (fuel : Nat) (c : List Char) : PRes Node × List Char :=
  run fuel (PCall.pexpr c)

def _parse_special (fuel : Nat) (c : List Char) : PRes Node × List Char :=
  run fuel (PCall.pspecial c)

def _parse_mangled_name (fuel : Nat) (c : List Char) : PRes Node × List Char :=
  run fuel (PCall.pmangled c)

/-- Fuel that dominates the recursion depth of any parse of s: every cycle
in the production call graph consumes at least one character, and at most
three calls in a row consume nothing. -/
def parseFuel (s : List Char) : Nat := 4 * s.length + 16

/-- The entry point: parse(raw) returns the AST (ok), the None failure
value (fail), or a raised exception (crash). -/
def parse (s : List Char) : PRes Node :=
  (_parse_mangled_name (parseFuel s) s).1

def isTplArgs : Node → Bool
  | Node.tpl_args _ => true
  | _ => false

/-- Python str.startswith tests used by the operator printer. -/
def strStartsWith (pre : String) (s : String) : Bool :=
  pre.data.isPrefixOf s.data

mutual
/-- The canonical printer: the three __str__ methods of the source.  For a
cv_qual node it joins the qualifier words in the order of the modelled
qualifier list (for a single qualifier this coincides with CPython set
iteration order; see the not-statable discussion of multi-qualifier order).
The branches where the source asserts False (unknown ctor and dtor values)
return the empty string; the parser only builds values from _ctor_dtor_map,
so they are unreachable from parse results. -/
def Node.str : Node → String
  | Node.name v => v
  | Node.qual_name vs => qualNameStr vs ""
  | Node.tpl_args vs => "<" ++ String.intercalate ", " (strList vs) ++ ">"
  | Node.ctor v =>
    if v = "complete" then "\x7bctor\x7d"
    else if v = "base" then "\x7bbase ctor\x7d"
    else if v = "allocating" then "\x7ballocating ctor\x7d"
    else ""
  | Node.dtor v =>
    if v = "deleting" then "\x7bdeleting dtor\x7d"
    else if v = "complete" then "\x7bdtor\x7d"
    else if v = "base" then "\x7bbase dtor\x7d"
    else ""
  | Node.operator v =>
    if strStartsWith "new" v || strStartsWith "delete" v then "operator " ++ v
    else "operator" ++ v
  | Node.pointer v => Node.str v ++ "*"
  | Node.lvalue v => Node.str v ++ "&"
  | Node.rvalue v => Node.str v ++ "&&"
  | Node.cv_qual v qual => String.intercalate " " (Node.str v :: qual)
  | Node.literal v ty => "(" ++ Node.str ty ++ ")" ++ v
  | Node.function nm args =>
    match args with
    | [Node.name "void"] => Node.str nm ++ "()"
    | _ => Node.str nm ++ "(" ++ String.intercalate ", " (strList args) ++ ")"
  | Node.tpl_param v => "\x7bT" ++ toString v ++ "\x7d"
  | Node.vtable v => "vtable for " ++ Node.str v
  | Node.vtt v => "vtt for " ++ Node.str v
  | Node.typeinfo v => "typeinfo for " ++ Node.str v
  | Node.typeinfo_name v => "typeinfo name for " ++ Node.str v
  | Node.pynone => "None"

def strList : List Node → List String
  | [] => []
  | n :: ns => Node.str n :: strList ns

/-- The qual_name print loop: elements joined by :: except that a tpl_args
element attaches directly, and nothing is inserted while the accumulated
result is still empty. -/
def qualNameStr : List Node → String → String
  | [], acc => acc
  | n :: ns, acc =>
    qualNameStr ns (acc ++ (if acc ≠ "" ∧ ¬(isTplArgs n = true) then "::" else "") ++ Node.str n)
end

/-- The test-harness view (assertDemangles): the printed AST on success,
none on the None failure (and on a crash, where the Python harness would
propagate the exception). -/
def demangleStr (s : String) : Option String :=
  match parse s.data with
  | PRes.ok n => some (Node.str n)
  | _ => none

/-- Whether a node is a function node (top constructor only). -/
def isFunctionNode : Node → Bool
  | Node.function _ _ => true
  | _ => false

mutual
/-- Every cv_qual node anywhere in the tree carries a non-empty qualifier
set. -/
def cvOK : Node → Bool
  | Node.name _ => true
  | Node.qual_name vs => cvOKList vs
  | Node.tpl_args vs => cvOKList vs
  | Node.ctor _ => true
  | Node.dtor _ => true
  | Node.operator _ => true
  | Node.pointer v => cvOK v
  | Node.lvalue v => cvOK v
  | Node.rvalue v => cvOK v
  | Node.cv_qual v qual => !qual.isEmpty && cvOK v
  | Node.literal _ ty => cvOK ty
  | Node.function nm args => cvOK nm && cvOKList args
  | Node.tpl_param _ => true
  | Node.vtable v => cvOK v
  | Node.vtt v => cvOK v
  | Node.typeinfo v => cvOK v
  | Node.typeinfo_name v => cvOK v
  | Node.pynone => true

def cvOKList : List Node → Bool
  | [] => true
  | n :: ns => cvOK n && cvOKList ns
end

mutual
/-- Every qual_name node anywhere in the tree holds a non-empty element
sequence. -/
def qnOK : Node → Bool
  | Node.name _ => true
  | Node.qual_name vs => !vs.isEmpty && qnOKList vs
  | Node.tpl_args vs => qnOKList vs
  | Node.ctor _ => true
  | Node.dtor _ => true
  | Node.operator _ => true
  | Node.pointer v => qnOK v
  | Node.lvalue v => qnOK v
  | Node.rvalue v => qnOK v
  | Node.cv_qual v _ => qnOK v
  | Node.literal _ ty => qnOK ty
  | Node.function nm args => qnOK nm && qnOKList args
  | Node.tpl_param _ => true
  | Node.vtable v => qnOK v
  | Node.vtt v => qnOK v
  | Node.typeinfo v => qnOK v
  | Node.typeinfo_name v => qnOK v
  | Node.pynone => true

def qnOKList : List Node → Bool
  | [] => true
  | n :: ns => qnOK n && qnOKList ns
end

/-- C1: parse never returns an AST-or-None outcome on every input: on the
claim's own example family, a template-parameter marker whose end-of-
parameter delimiter never appears, the source evaluates int(None, 36) and
raises TypeError instead of returning the failure value; likewise a nested
mangled-name literal whose end marker never appears reaches
re.match(None, ...) and raises TypeError.  The theorem evaluates the
embedded parser at both failing inputs and shows the outcome is a raised
exception, not the failure value. -/
theorem c1_truncated_inputs_crash :
    parse "_Z1fT".data = PRes.crash ∧ parse "_Z1fIL_Z1g".data = PRes.crash :=
  ⟨rfl, rfl⟩

/-- C2: each concrete scenario of the spec, evaluated: the nine successful
inputs print exactly the listed text, and the two malformed inputs yield
the failure value. -/
theorem c2_concrete_scenarios :
    demangleStr "_Z3foo" = some "foo" ∧
    demangleStr "_ZN3fooC1E" = some "foo::\x7bctor\x7d" ∧
    demangleStr "_ZSs" = some "std::string" ∧
    demangleStr "_Z3fooIcE" = some "foo<char>" ∧
    demangleStr "_Z1fv" = some "f()" ∧
    demangleStr "_Z1fPi" = some "f(int*)" ∧
    demangleStr "_Z1fRKi" = some "f(int const&)" ∧
    demangleStr "_Z1fILi1EE" = some "f<(int)1>" ∧
    demangleStr "_ZTV1f" = some "vtable for f" ∧
    parse "_Z3x".data = PRes.fail ∧
    parse "_ZSt".data = PRes.fail :=
  ⟨rfl, rfl, rfl, rfl, rfl, rfl, rfl, rfl, rfl, rfl, rfl⟩

/-- C3 counterexample: on the input _ZTV9Ss the special-name production
matches its introducer tag TV but its inner type production fails (the
source name declares length 9 with only two characters left), leaving the
cursor past the consumed text; the claim says the entire parse must then
fail, yet parse succeeds, returning std::string parsed from the leftover
cursor position.  The fuel value 43 is exactly what the top-level parse
hands this inner call. -/
theorem c3_counterexample_special_failure_recovers :
    _parse_special 43 "TV9Ss".data = (PRes.fail, "Ss".data) ∧
    parse "_ZTV9Ss".data = PRes.ok (Node.qual_name [Node.name "std", Node.name "string"]) :=
  ⟨rfl, rfl⟩

/-- C6 counterexample: parse succeeds on _ZNE and returns a qual_name node
with zero elements, produced by the nested-name production whose end marker
immediately follows its introducer. -/
theorem c6_counterexample_empty_qual_name :
    parse "_ZNE".data = PRes.ok (Node.qual_name []) :=
  rfl

/-- C9 counterexample: the input _ZTI9Ss contains a length-prefixed source
name whose declared length 9 exceeds the 2 remaining characters; the claim
says this makes the parse fail, but the failure is absorbed by the
special-name fallback of the mangled-name production and the parse
succeeds.  (No truncated name node is produced: the result re-parses the
remainder as the Ss abbreviation.) -/
theorem c9_counterexample_overlong_name_parse_succeeds :
    _parse_name 41 "9Ss".data = (PRes.fail, "Ss".data) ∧
    parse "_ZTI9Ss".data = PRes.ok (Node.qual_name [Node.name "std", Node.name "string"]) :=
  ⟨rfl, rfl⟩

/-- C4 counterexample: for the input _Z1fT0_ the template-parameter marker
carries the digit text 0, whose base-36 value is 0; the claim says the
tpl_param node carries exactly that value, but the source stores
1 + int(text, 36), so the node carries 1. -/
theorem c4_counterexample_tpl_param_offset :
    parse "_Z1fT0_".data = PRes.ok (Node.function (Node.name "f") [Node.tpl_param 1]) ∧
    parse "_Z1fT0_".data ≠ PRes.ok (Node.function (Node.name "f") [Node.tpl_param 0]) := by
  refine ⟨rfl, ?_⟩
  intro h
  rw [show parse "_Z1fT0_".data
      = PRes.ok (Node.function (Node.name "f") [Node.tpl_param 1]) from rfl] at h
  simp at h

lemma isB36Digit_not_whitespace (ch : Char) (h : isB36Digit ch = true) :
    ch.isWhitespace = false := by
  rcases Bool.eq_false_or_eq_true ch.isWhitespace with hw | hw
  · exfalso
    have hmem : ch = ' ' ∨ ch = '\t' ∨ ch = '\r' ∨ ch = '\n' := by
      have := hw
      simp only [Char.isWhitespace, Bool.or_eq_true, decide_eq_true_eq] at this
      tauto
    rcases hmem with rfl | rfl | rfl | rfl <;> exact absurd h (by decide)
  · exact hw

lemma dropWhile_ws_eq_self (l : List Char) (h : ∀ ch ∈ l, isB36Digit ch = true) :
    l.dropWhile Char.isWhitespace = l := by
  cases l with
  | nil => rfl
  | cons a t =>
    have := isB36Digit_not_whitespace a (h a (List.mem_cons_self a t))
    simp [List.dropWhile_cons, this]

lemma pyInt36_of_digits (s : List Char) (hne : s ≠ [])
    (h : ∀ ch ∈ s, isB36Digit ch = true) : pyInt36 s = PRes.ok ((b36Val s : Int)) := by
  have ht : ((s.dropWhile Char.isWhitespace).reverse.dropWhile Char.isWhitespace).reverse = s := by
    rw [dropWhile_ws_eq_self s h]
    rw [dropWhile_ws_eq_self s.reverse (fun ch hm => h ch (List.mem_reverse.mp hm))]
    exact List.reverse_reverse s
  simp only [pyInt36]
  rw [ht]
  cases s with
  | nil => exact absurd rfl hne
  | cons ch cs =>
    have hch : isB36Digit ch = true := h ch (List.mem_cons_self ch cs)
    have hplus : ch ≠ '+' := by rintro rfl; exact absurd hch (by decide)
    have hminus : ch ≠ '-' := by rintro rfl; exact absurd hch (by decide)
    have hall : (ch :: cs).all isB36Digit = true := by
      rw [List.all_eq_true]; intro x hx; exact h x hx
    simp [hplus, hminus, hall]

lemma advanceUntil_append_delim (d : Char) (s rest : List Char) (h : d ∉ s) :
    cursorAdvanceUntil d (s ++ d :: rest) = some (s, rest) := by
  induction s with
  | nil => simp [cursorAdvanceUntil]
  | cons a t ih =>
    have ha : a ≠ d := fun he => h (he ▸ List.mem_cons_self a t)
    have ht : d ∉ t := fun hm => h (List.mem_cons_of_mem a hm)
    simp [cursorAdvanceUntil, ha, ih ht]

/-- C4, amended: the template-parameter production reads the characters up
to the end-of-parameter delimiter with Python int(text, 36) and produces a
tpl_param node carrying one plus that value, while the bare form (the
delimiter immediately follows the marker) denotes index 0; for a nonempty
all-base-36-digit sequence s the carried value is therefore 1 + base36(s),
not base36(s). -/
theorem c4_amended_tpl_param_value :
    (∀ fuel s rest, s ≠ [] → (∀ ch ∈ s, isB36Digit ch = true) →
      run (fuel + 1) (PCall.ptype ('T' :: (s ++ '_' :: rest)))
        = (PRes.ok (Node.tpl_param (1 + (b36Val s : Int))), rest)) ∧
    (∀ fuel rest, run (fuel + 1) (PCall.ptype ('T' :: '_' :: rest))
        = (PRes.ok (Node.tpl_param 0), rest)) := by
  constructor
  · intro fuel s rest hne hds
    have hT : matchType ('T' :: (s ++ '_' :: rest))
        = some (TypeTok.template_param, s ++ '_' :: rest) := rfl
    have hu : '_' ∉ s := fun hmem => absurd (hds '_' hmem) (by decide)
    have hAU := advanceUntil_append_delim '_' s rest hu
    have hPI := pyInt36_of_digits s hne hds
    simp only [run, hT, hAU, hPI]
    simp [hne]
  · intro fuel rest
    rfl

/-- Witness for the amended C4 theorem at the concrete input T10_ (hexatrigesimal
10 is 36, so the node carries 37). -/
theorem c4_amended_witness :
    run 1 (PCall.ptype ('T' :: '1' :: '0' :: '_' :: [])) = (PRes.ok (Node.tpl_param 37), []) := by
  have h := c4_amended_tpl_param_value.1 0 ['1', '0'] [] (by simp) (by decide)
  rw [show (1 + (b36Val ['1', '0'] : Int)) = 37 from by decide] at h
  simpa using h

lemma takeWhile_replicate_append (p : Char → Bool) (q : Char) (hq : p q = true)
    (m : Nat) (rest : List Char) :
    (List.replicate m q ++ rest).takeWhile p = List.replicate m q ++ rest.takeWhile p := by
  induction m with
  | zero => simp
  | succ k ih => simp [List.replicate_succ, List.takeWhile_cons, hq, ih]

lemma dropWhile_replicate_append (p : Char → Bool) (q : Char) (hq : p q = true)
    (m : Nat) (rest : List Char) :
    (List.replicate m q ++ rest).dropWhile p = rest.dropWhile p := by
  induction m with
  | zero => simp
  | succ k ih => simp [List.replicate_succ, List.dropWhile_cons, hq, ih]

lemma mem_cons_replicate_append (x q : Char) (m : Nat) (p : List Char) :
    (x ∈ q :: (List.replicate m q ++ p)) ↔ (x ∈ q :: p) := by
  simp only [List.mem_cons, List.mem_append, List.mem_replicate]
  tauto

lemma cvQualifierSet_absorb (q : Char) (m : Nat) (p : List Char) :
    cvQualifierSet (q :: (List.replicate m q ++ p)) = cvQualifierSet (q :: p) := by
  simp only [cvQualifierSet]
  rw [if_congr (mem_cons_replicate_append 'r' q m p) rfl rfl,
    if_congr (mem_cons_replicate_append 'V' q m p) rfl rfl,
    if_congr (mem_cons_replicate_append 'K' q m p) rfl rfl]

lemma isRVKChar_cases (q : Char) (hq : isRVKChar q = true) :
    q = 'r' ∨ q = 'V' ∨ q = 'K' := by
  simp only [isRVKChar, Bool.or_eq_true, beq_iff_eq] at hq
  tauto

lemma matchType_rvk (q : Char) (hq : isRVKChar q = true) (tail : List Char) :
    matchType (q :: tail)
      = some (TypeTok.qualified_type ((q :: tail).takeWhile isRVKChar),
          (q :: tail).dropWhile isRVKChar) := by
  rcases isRVKChar_cases q hq with rfl | rfl | rfl <;> rfl

/-- C8: repeating the same cv-qualifier letter any number of times in a
qualified-type production yields exactly the same parse outcome as writing
it once: the qualified-type pattern consumes the whole qualifier run in one
match and _handle_cv turns it into a membership set, so n copies and one
copy produce the same cv_qual node and leave the same cursor; in
particular parse of _Z1fVVVi equals parse of _Z1fVi. -/
theorem c8_qualifier_idempotence :
    (∀ fuel q n rest, isRVKChar q = true → 1 ≤ n →
      run (fuel + 1) (PCall.ptype (List.replicate n q ++ rest))
        = run (fuel + 1) (PCall.ptype (q :: rest))) ∧
    parse "_Z1fVVVi".data = parse "_Z1fVi".data := by
  constructor
  · intro fuel q n rest hq hn
    obtain ⟨m, rfl⟩ : ∃ m, n = m + 1 := ⟨n - 1, by omega⟩
    have hrepl : List.replicate (m + 1) q ++ rest = q :: (List.replicate m q ++ rest) := by
      simp [List.replicate_succ]
    rw [hrepl]
    simp only [run, matchType_rvk q hq]
    have htake : (q :: (List.replicate m q ++ rest)).takeWhile isRVKChar
        = q :: (List.replicate m q ++ rest.takeWhile isRVKChar) := by
      simp [List.takeWhile_cons, hq, takeWhile_replicate_append isRVKChar q hq]
    have htake2 : (q :: rest).takeWhile isRVKChar = q :: rest.takeWhile isRVKChar := by
      simp [List.takeWhile_cons, hq]
    have hdrop : (q :: (List.replicate m q ++ rest)).dropWhile isRVKChar
        = rest.dropWhile isRVKChar := by
      simp [List.dropWhile_cons, hq, dropWhile_replicate_append isRVKChar q hq]
    have hdrop2 : (q :: rest).dropWhile isRVKChar = rest.dropWhile isRVKChar := by
      simp [List.dropWhile_cons, hq]
    rw [htake, htake2, hdrop, hdrop2]
    rcases hr : run fuel (PCall.ptype (rest.dropWhile isRVKChar)) with ⟨r, c2⟩
    cases r with
    | ok ty =>
      simp only []
      have : _handle_cv (q :: (List.replicate m q ++ rest.takeWhile isRVKChar)) ty
          = _handle_cv (q :: rest.takeWhile isRVKChar) ty := by
        simp only [_handle_cv, cvQualifierSet_absorb]
      rw [this]
    | fail => rfl
    | crash => rfl
    | oof => rfl
  · rfl

/-- Witness for the C8 theorem: three volatile markers behave exactly like
one in front of the int builtin type. -/
theorem c8_witness :
    run 3 (PCall.ptype ('V' :: 'V' :: 'V' :: 'i' :: [])) = run 3 (PCall.ptype ('V' :: 'i' :: [])) := by
  have h := c8_qualifier_idempotence.1 2 'V' 3 ['i'] rfl (by omega)
  simpa [List.replicate] using h

lemma pmangled_fail_propagation : ∀ fuel s c1 c2 c3, matchMangled s = some c1 →
    run fuel (PCall.pspecial c1) = (PRes.fail, c2) →
    run fuel (PCall.pname c2) = (PRes.fail, c3) →
    run (fuel + 1) (PCall.pmangled s) = (PRes.fail, c3) := by
  intro fuel s c1 c2 c3 h1 h2 h3
  simp only [run, h1, h2, h3]

/-- C3, amended: every caller that receives failure from a sub-production
passes it straight up, with exactly two absorption points.  (i) Inside
_parse_mangled_name, after the _Z prefix, a failed special-name attempt is
treated as absence of a special name: parsing continues with the name
production at whatever cursor position the failed attempt left behind
(possibly past its consumed introducer tag), so a special-name whose inner
type production failed does not necessarily fail the whole parse.  (ii) In
the nested-name branch of _parse_name, when the inner element sequence
fails but cv- or ref-qualifier letters were matched, _handle_cv and
_handle_indirect wrap the Python None into a live node and parsing
continues from the leaked cursor as if the body had parsed; only when no
qualifier contributes does the nested-name failure propagate.  The theorem
proves propagation at every other failure-receiving call site of the
recognizer, characterizes both absorption points, and shows absorption
(ii) turning an inner failure into overall success on the input _ZNK. -/
theorem c3_amended_failure_propagation :
    (∀ fuel s c1 c2 c3, matchMangled s = some c1 →
      run fuel (PCall.pspecial c1) = (PRes.fail, c2) →
      run fuel (PCall.pname c2) = (PRes.fail, c3) →
      run (fuel + 1) (PCall.pmangled s) = (PRes.fail, c3)) ∧
    (∀ fuel nm c acc c2, c ≠ [] →
      run fuel (PCall.ptype c) = (PRes.fail, c2) →
      run (fuel + 1) (PCall.pargs nm c acc) = (PRes.fail, c2)) ∧
    (∀ fuel c digits c1 c2, matchName c = some (NameTok.source_name digits, c1) →
      _parse_source_name digits c1 = (PRes.fail, c2) →
      run (fuel + 1) (PCall.pname c) = (PRes.fail, c2)) ∧
    (∀ fuel c c1 c2, matchName c = some (NameTok.std_pfx, c1) →
      run fuel (PCall.pname c1) = (PRes.fail, c2) →
      run (fuel + 1) (PCall.pname c) = (PRes.fail, c2)) ∧
    (∀ fuel c cv ref c1 c2, matchName c = some (NameTok.nested_name cv ref, c1) →
      _handle_indirect ref (_handle_cv cv Node.pynone) = Node.pynone →
      run fuel (PCall.puntil_name c1 []) = (PRes.fail, c2) →
      run (fuel + 1) (PCall.pname c) = (PRes.fail, c2)) ∧
    (∀ fuel c cv ref c1 c2 w, matchName c = some (NameTok.nested_name cv ref, c1) →
      run fuel (PCall.puntil_name c1 []) = (PRes.fail, c2) →
      _handle_indirect ref (_handle_cv cv Node.pynone) = w →
      w ≠ Node.pynone →
      run (fuel + 1) (PCall.pname c) = run fuel (PCall.pfold w c2)) ∧
    (∀ fuel c c1 c2, matchName c = some (NameTok.template_args, c1) →
      run fuel (PCall.puntil_type c1 []) = (PRes.fail, c2) →
      run (fuel + 1) (PCall.pname c) = (PRes.fail, c2)) ∧
    (∀ fuel node c c1 c2, cursorAccept ['I'] c = some c1 →
      run fuel (PCall.puntil_type c1 []) = (PRes.fail, c2) →
      run (fuel + 1) (PCall.pfold node c) = (PRes.fail, c2)) ∧
    (∀ fuel c q c1 c2, matchType c = some (TypeTok.qualified_type q, c1) →
      run fuel (PCall.ptype c1) = (PRes.fail, c2) →
      run (fuel + 1) (PCall.ptype c) = (PRes.fail, c2)) ∧
    (∀ fuel c q c1 c2, matchType c = some (TypeTok.indirect_type q, c1) →
      run fuel (PCall.ptype c1) = (PRes.fail, c2) →
      run (fuel + 1) (PCall.ptype c) = (PRes.fail, c2)) ∧
    (∀ fuel c c2, matchType c = none →
      run fuel (PCall.pname c) = (PRes.fail, c2) →
      run (fuel + 1) (PCall.ptype c) = (PRes.fail, c2)) ∧
    (∀ fuel c c1 c2, matchExprPrimary c = some (false, c1) →
      run fuel (PCall.ptype c1) = (PRes.fail, c2) →
      run (fuel + 1) (PCall.pexpr c) = (PRes.fail, c2)) ∧
    (∀ fuel c c1 ty c2, matchExprPrimary c = some (false, c1) →
      run fuel (PCall.ptype c1) = (PRes.ok ty, c2) →
      cursorAdvanceUntil 'E' c2 = none →
      run (fuel + 1) (PCall.pexpr c) = (PRes.fail, c2)) ∧
    (∀ fuel c c1 sub c2 csub, matchExprPrimary c = some (true, c1) →
      cursorAdvanceUntil 'E' c1 = some (sub, c2) →
      run fuel (PCall.pmangled sub) = (PRes.fail, csub) →
      run (fuel + 1) (PCall.pexpr c) = (PRes.fail, c2)) ∧
    (∀ fuel c kc c1 c2, matchSpecial c = some (kc, c1) →
      run fuel (PCall.ptype c1) = (PRes.fail, c2) →
      run (fuel + 1) (PCall.pspecial c) = (PRes.fail, c2)) ∧
    (∀ fuel c acc c2, cursorAccept ['E'] c = none →
      run fuel (PCall.pname c) = (PRes.fail, c2) →
      run (fuel + 1) (PCall.puntil_name c acc) = (PRes.fail, c2)) ∧
    (∀ fuel c acc c2, cursorAccept ['E'] c = none →
      run fuel (PCall.ptype c) = (PRes.fail, c2) →
      run (fuel + 1) (PCall.puntil_type c acc) = (PRes.fail, c2)) ∧
    parse "_ZNK".data = PRes.ok (Node.cv_qual Node.pynone ["const"]) := by
  refine ⟨pmangled_fail_propagation, ?_, ?_, ?_, ?_, ?_, ?_, ?_, ?_, ?_, ?_, ?_, ?_, ?_, ?_, ?_, ?_, rfl⟩
  · intro fuel nm c acc c2 hc h2
    cases c with
    | nil => exact absurd rfl hc
    | cons a t => simp only [run, h2]
  · intro fuel c digits c1 c2 hm hs
    simp only [run, hm, hs]
  · intro fuel c c1 c2 hm hr
    simp only [run, hm, hr]
  · intro fuel c cv ref c1 c2 hm hw hr
    simp only [run, hm, hr]
    rw [hw]
  · intro fuel c cv ref c1 c2 w hm hr hw hne
    simp only [run, hm, hr]
    rw [hw]
    cases w <;> first | exact absurd rfl hne | rfl
  · intro fuel c c1 c2 hm hr
    simp only [run, hm, hr]
  · intro fuel node c c1 c2 ha hr
    simp only [run, ha, hr]
  · intro fuel c q c1 c2 hm hr
    simp only [run, hm, hr]
  · intro fuel c q c1 c2 hm hr
    simp only [run, hm, hr]
  · intro fuel c c2 hm hr
    simp only [run, hm, hr]
  · intro fuel c c1 c2 hm hr
    simp only [run, hm, Bool.false_eq_true, if_false, hr]
  · intro fuel c c1 ty c2 hm hr hadv
    simp only [run, hm, Bool.false_eq_true, if_false, hr, hadv]
  · intro fuel c c1 sub c2 csub hm hadv hrm
    simp only [run, hm, if_true, hadv, hrm]
  · intro fuel c kc c1 c2 hm hr
    simp only [run, hm, hr]
  · intro fuel c acc c2 ha hr
    simp only [run, ha, hr]
  · intro fuel c acc c2 ha hr
    simp only [run, ha, hr]

/-- Witness for the amended C3 theorem: propagation at the mangled-name,
argument-loop, qualifier-free nested-name and special-name sites, and the
absorption equation of a qualifier-carrying nested-name, all at concrete
inputs. -/
theorem c3_amended_witness :
    run 6 (PCall.pmangled "_Zx".data) = (PRes.fail, "x".data) ∧
    run 4 (PCall.pargs (Node.name "f") "Q".data []) = (PRes.fail, "Q".data) ∧
    run 3 (PCall.pname "Nx".data) = (PRes.fail, "x".data) ∧
    run 3 (PCall.pname "NK".data) = run 2 (PCall.pfold (Node.cv_qual Node.pynone ["const"]) []) ∧
    run 3 (PCall.pspecial "TVQ".data) = (PRes.fail, "Q".data) := by
  obtain ⟨p1, p2, _, _, p5, p6, _, _, _, _, _, _, _, _, p15, _, _, _⟩ :=
    c3_amended_failure_propagation
  exact ⟨p1 5 "_Zx".data "x".data "x".data "x".data rfl rfl rfl,
    p2 3 (Node.name "f") "Q".data [] "Q".data (by simp) rfl,
    p5 2 "Nx".data [] [] "x".data "x".data rfl rfl rfl,
    p6 2 "NK".data ['K'] [] [] [] (Node.cv_qual Node.pynone ["const"]) rfl rfl rfl (by simp),
    p15 2 "TVQ".data 'V' "Q".data "Q".data rfl rfl⟩

/-- C9, amended: a length-prefixed source name whose declared length N
exceeds the number of remaining input characters makes the source-name
production fail with the cursor unmoved past the digits, and the name
production that dispatched to it fails at that same cursor; the failure
then propagates like any other parse failure - it fails the whole parse
except where a failure is absorbed (the special-name fallback of the
mangled-name production, and the qualifier wrap of a failed nested-name
body); in particular an overlong source name in the top-level name
position of the mangled-name production fails the whole parse.  And parse
never returns a name node holding fewer than N characters: a successful
source-name parse consumes and stores exactly N characters. -/
theorem c9_amended_source_name_exact :
    (∀ d c, c.length < digitsToNat d → _parse_source_name d c = (PRes.fail, c)) ∧
    (∀ d c v c', _parse_source_name d c = (PRes.ok (Node.name v), c') →
      v.data.length = digitsToNat d ∧ v.data ++ c' = c) ∧
    (∀ fuel c digits c1, matchName c = some (NameTok.source_name digits, c1) →
      c1.length < digitsToNat digits →
      run (fuel + 1) (PCall.pname c) = (PRes.fail, c1)) ∧
    (∀ g s c1 c2 digits c3, matchMangled s = some c1 →
      run (g + 1) (PCall.pspecial c1) = (PRes.fail, c2) →
      matchName c2 = some (NameTok.source_name digits, c3) →
      c3.length < digitsToNat digits →
      run (g + 1 + 1) (PCall.pmangled s) = (PRes.fail, c3)) := by
  have ha : ∀ d c, c.length < digitsToNat d → _parse_source_name d c = (PRes.fail, c) := by
    intro d c h
    simp [_parse_source_name, cursorAdvance, h]
  have hc : ∀ fuel c digits c1, matchName c = some (NameTok.source_name digits, c1) →
      c1.length < digitsToNat digits →
      run (fuel + 1) (PCall.pname c) = (PRes.fail, c1) := by
    intro fuel c digits c1 hm hlen
    simp only [run, hm, ha digits c1 hlen]
  refine ⟨ha, ?_, hc, ?_⟩
  · intro d c v c' h
    rw [_parse_source_name] at h
    rcases hv : cursorAdvance (digitsToNat d) c with _ | ⟨pre, post⟩
    · rw [hv] at h; exact absurd h (by simp)
    · rw [hv] at h
      simp only [Prod.mk.injEq, PRes.ok.injEq, Node.name.injEq] at h
      obtain ⟨hveq, hc'⟩ := h
      rw [cursorAdvance] at hv
      by_cases hlen : c.length < digitsToNat d
      · rw [if_pos hlen] at hv; exact absurd hv (by simp)
      · rw [if_neg hlen] at hv
        simp only [Option.some.injEq, Prod.mk.injEq] at hv
        obtain ⟨hpre, hpost⟩ := hv
        subst hveq hc' hpre hpost
        constructor
        · simp only [String.mk]
          rw [List.length_take]
          omega
        · simp only [String.mk]
          exact List.take_append_drop (digitsToNat d) c
  · intro g s c1 c2 digits c3 h1 h2 h3 hlen
    exact pmangled_fail_propagation (g + 1) s c1 c2 c3 h1 h2 (hc g c2 digits c3 h3 hlen)

/-- Witness for the amended C9 theorem: declared length 9 with two
characters left fails the source-name production with the cursor unmoved
and fails the name production; it consumes exactly the declared count on
success (declared 3 consumes foo from fooX); and at the top-level name
position of _Z9Ss the whole parse fails. -/
theorem c9_amended_witness :
    _parse_source_name ['9'] "Ss".data = (PRes.fail, "Ss".data) ∧
    ("foo".data.length = digitsToNat ['3'] ∧ "foo".data ++ "X".data = "fooX".data) ∧
    run 4 (PCall.pname "9Ss".data) = (PRes.fail, "Ss".data) ∧
    run 4 (PCall.pmangled "_Z9Ss".data) = (PRes.fail, "Ss".data) := by
  obtain ⟨pa, pb, pc, pd⟩ := c9_amended_source_name_exact
  exact ⟨pa ['9'] "Ss".data (by decide),
    pb ['3'] "fooX".data "foo" "X".data rfl,
    pc 3 "9Ss".data ['9'] "Ss".data rfl (by decide),
    pd 2 "_Z9Ss".data "9Ss".data "9Ss".data ['9'] "Ss".data rfl rfl rfl (by decide)⟩


lemma run_zero_not_ok {k : PCall} {n : Node} {c' : List Char}
    (h : run 0 k = (PRes.ok n, c')) : False := by
  simp [run] at h

lemma pargs_ok_result : ∀ fuel nm c acc n c',
    run fuel (PCall.pargs nm c acc) = (PRes.ok n, c') →
    (n = nm ∧ acc = []) ∨ ∃ a as_, n = Node.function nm (a :: as_) := by
  intro fuel
  induction fuel with
  | zero => intro nm c acc n c' h; exact absurd h (by simp [run])
  | succ k ih =>
    intro nm c acc n c' h
    cases c with
    | nil =>
      cases acc with
      | nil =>
        simp only [run, Prod.mk.injEq, PRes.ok.injEq] at h
        exact Or.inl ⟨h.1.symm, rfl⟩
      | cons a as_ =>
        simp only [run, Prod.mk.injEq, PRes.ok.injEq] at h
        exact Or.inr ⟨a, as_, h.1.symm⟩
    | cons x xs =>
      simp only [run] at h
      rcases hr : run k (PCall.ptype (x :: xs)) with ⟨r, c2⟩
      cases r with
      | ok t =>
        simp only [hr] at h
        rcases ih nm c2 (acc ++ [t]) n c' h with ⟨hn, habs⟩ | hfn
        · exact absurd habs (by simp)
        · exact Or.inr hfn
      | fail => simp only [hr] at h; exact absurd h (by simp)
      | crash => simp only [hr] at h; exact absurd h (by simp)
      | oof => simp only [hr] at h; exact absurd h (by simp)

lemma puntil_name_ok_shape : ∀ fuel c acc n c',
    run fuel (PCall.puntil_name c acc) = (PRes.ok n, c') → ∃ vs, n = Node.qual_name vs := by
  intro fuel
  induction fuel with
  | zero => intro c acc n c' h; exact absurd h (by simp [run])
  | succ k ih =>
    intro c acc n c' h
    simp only [run] at h
    rcases ha : cursorAccept ['E'] c with _ | c2
    · simp only [ha] at h
      rcases hr : run k (PCall.pname c) with ⟨r, c2⟩
      cases r with
      | ok nd =>
        simp only [hr] at h
        cases c2 with
        | nil => exact absurd h (by simp)
        | cons y ys => exact ih (y :: ys) (acc ++ [nd]) n c' h
      | fail => simp only [hr] at h; exact absurd h (by simp)
      | crash => simp only [hr] at h; exact absurd h (by simp)
      | oof => simp only [hr] at h; exact absurd h (by simp)
    · simp only [ha, Prod.mk.injEq, PRes.ok.injEq] at h
      exact ⟨acc, h.1.symm⟩

lemma puntil_type_ok_shape : ∀ fuel c acc n c',
    run fuel (PCall.puntil_type c acc) = (PRes.ok n, c') → ∃ vs, n = Node.tpl_args vs := by
  intro fuel
  induction fuel with
  | zero => intro c acc n c' h; exact absurd h (by simp [run])
  | succ k ih =>
    intro c acc n c' h
    simp only [run] at h
    rcases ha : cursorAccept ['E'] c with _ | c2
    · simp only [ha] at h
      rcases hr : run k (PCall.ptype c) with ⟨r, c2⟩
      cases r with
      | ok nd =>
        simp only [hr] at h
        cases c2 with
        | nil => exact absurd h (by simp)
        | cons y ys => exact ih (y :: ys) (acc ++ [nd]) n c' h
      | fail => simp only [hr] at h; exact absurd h (by simp)
      | crash => simp only [hr] at h; exact absurd h (by simp)
      | oof => simp only [hr] at h; exact absurd h (by simp)
    · simp only [ha, Prod.mk.injEq, PRes.ok.injEq] at h
      exact ⟨acc, h.1.symm⟩

lemma handle_cv_not_function (cv : List Char) (x : Node)
    (h : isFunctionNode x = false) : isFunctionNode (_handle_cv cv x) = false := by
  unfold _handle_cv
  cases cvQualifierSet cv with
  | nil => exact h
  | cons q qs => rfl

lemma handle_indirect_not_function (ref : List Char) (x : Node)
    (h : isFunctionNode x = false) : isFunctionNode (_handle_indirect ref x) = false := by
  unfold _handle_indirect
  split
  · rfl
  · rfl
  · rfl
  · exact h

lemma source_name_ok_shape (d c : List Char) (x : Node) (c' : List Char)
    (h : _parse_source_name d c = (PRes.ok x, c')) : ∃ v, x = Node.name v := by
  rw [_parse_source_name] at h
  rcases hv : cursorAdvance (digitsToNat d) c with _ | ⟨pre, post⟩
  · simp only [hv] at h; exact absurd h (by simp)
  · simp only [hv, Prod.mk.injEq, PRes.ok.injEq] at h
    exact ⟨String.mk pre, h.1.symm⟩

lemma pfold_ok_not_function : ∀ fuel node c n c',
    run fuel (PCall.pfold node c) = (PRes.ok n, c') → isFunctionNode node = false →
    isFunctionNode n = false := by
  intro fuel node c n c' h hnode
  cases fuel with
  | zero => exact absurd h (by simp [run])
  | succ k =>
    simp only [run] at h
    rcases ha : cursorAccept ['I'] c with _ | c2
    · simp only [ha, Prod.mk.injEq, PRes.ok.injEq] at h
      rw [← h.1]
      exact hnode
    · simp only [ha] at h
      rcases hr : run k (PCall.puntil_type c2 []) with ⟨r, c3⟩
      cases r with
      | ok targs =>
        simp only [hr, Prod.mk.injEq, PRes.ok.injEq] at h
        rw [← h.1]
        rfl
      | fail => simp only [hr] at h; exact absurd h (by simp)
      | crash => simp only [hr] at h; exact absurd h (by simp)
      | oof => simp only [hr] at h; exact absurd h (by simp)

lemma pname_ok_not_function : ∀ fuel c n c',
    run fuel (PCall.pname c) = (PRes.ok n, c') → isFunctionNode n = false := by
  intro fuel
  induction fuel with
  | zero => intro c n c' h; exact absurd h (by simp [run])
  | succ k ih =>
    intro c n c' h
    simp only [run] at h
    rcases hm : matchName c with _ | ⟨tok, c1⟩
    · simp only [hm] at h; exact absurd h (by simp)
    · simp only [hm] at h
      cases tok with
      | source_name digits =>
        rcases hs : _parse_source_name digits c1 with ⟨r, c2⟩
        cases r with
        | ok node =>
          simp only [hs] at h
          obtain ⟨v, rfl⟩ := source_name_ok_shape digits c1 node c2 hs
          exact pfold_ok_not_function k _ _ _ _ h rfl
        | fail => simp only [hs] at h; exact absurd h (by simp)
        | crash => simp only [hs] at h; exact absurd h (by simp)
        | oof => simp only [hs] at h; exact absurd h (by simp)
      | ctor_name code =>
        rcases hc : _ctor_dtor_map code with _ | v
        · simp only [hc] at h; exact absurd h (by simp)
        · simp only [hc] at h; exact pfold_ok_not_function k _ _ _ _ h rfl
      | dtor_name code =>
        rcases hc : _ctor_dtor_map code with _ | v
        · simp only [hc] at h; exact absurd h (by simp)
        · simp only [hc] at h; exact pfold_ok_not_function k _ _ _ _ h rfl
      | std_name code =>
        rcases hc : _std_names code with _ | vs
        · simp only [hc] at h; exact absurd h (by simp)
        · simp only [hc] at h; exact pfold_ok_not_function k _ _ _ _ h rfl
      | operator_name code =>
        rcases hc : _operators code with _ | v
        · simp only [hc] at h; exact absurd h (by simp)
        · simp only [hc] at h; exact pfold_ok_not_function k _ _ _ _ h rfl
      | std_pfx =>
        rcases hr : run k (PCall.pname c1) with ⟨r, c2⟩
        cases r with
        | ok nm =>
          simp only [hr] at h
          cases nm <;> exact pfold_ok_not_function k _ _ _ _ h rfl
        | fail => simp only [hr] at h; exact absurd h (by simp)
        | crash => simp only [hr] at h; exact absurd h (by simp)
        | oof => simp only [hr] at h; exact absurd h (by simp)
      | nested_name cv ref =>
        rcases hr : run k (PCall.puntil_name c1 []) with ⟨r, c2⟩
        cases r with
        | ok nd =>
          simp only [hr] at h
          obtain ⟨vs, rfl⟩ := puntil_name_ok_shape k c1 [] nd c2 hr
          exact pfold_ok_not_function k _ _ _ _ h
            (handle_indirect_not_function ref _ (handle_cv_not_function cv _ rfl))
        | fail =>
          simp only [hr] at h
          have hwf : isFunctionNode (_handle_indirect ref (_handle_cv cv Node.pynone)) = false :=
            handle_indirect_not_function ref _ (handle_cv_not_function cv _ rfl)
          cases hww : _handle_indirect ref (_handle_cv cv Node.pynone) <;> rw [hww] at h hwf
          case pynone => exact absurd h (by simp)
          all_goals exact pfold_ok_not_function k _ _ _ _ h hwf
        | crash => simp only [hr] at h; exact absurd h (by simp)
        | oof => simp only [hr] at h; exact absurd h (by simp)
      | template_args =>
        rcases hr : run k (PCall.puntil_type c1 []) with ⟨r, c2⟩
        cases r with
        | ok nd =>
          simp only [hr] at h
          obtain ⟨vs, rfl⟩ := puntil_type_ok_shape k c1 [] nd c2 hr
          exact pfold_ok_not_function k _ _ _ _ h rfl
        | fail => simp only [hr] at h; exact absurd h (by simp)
        | crash => simp only [hr] at h; exact absurd h (by simp)
        | oof => simp only [hr] at h; exact absurd h (by simp)

lemma pspecial_ok_not_function : ∀ fuel c n c',
    run fuel (PCall.pspecial c) = (PRes.ok n, c') → isFunctionNode n = false := by
  intro fuel c n c' h
  cases fuel with
  | zero => exact absurd h (by simp [run])
  | succ k =>
    simp only [run] at h
    rcases hm : matchSpecial c with _ | ⟨kc, c1⟩
    · simp only [hm] at h; exact absurd h (by simp)
    · simp only [hm] at h
      rcases hr : run k (PCall.ptype c1) with ⟨r, c2⟩
      cases r with
      | ok nm =>
        simp only [hr, Prod.mk.injEq, PRes.ok.injEq] at h
        rw [← h.1]
        split_ifs <;> rfl
      | fail => simp only [hr] at h; exact absurd h (by simp)
      | crash => simp only [hr] at h; exact absurd h (by simp)
      | oof => simp only [hr] at h; exact absurd h (by simp)

/-- C7: in the mangled-name production, zero trailing type productions
yield the name node itself (first conjunct); the argument loop otherwise
yields a function node pairing that same name with a non-empty argument
list (second conjunct); and a function node returned by the mangled-name
production never has an empty argument list (third conjunct; the
special-name branch returns RTTI wrappers and the name production never
returns a function node). -/
theorem c7_function_never_empty_args :
    (∀ fuel nm, run (fuel + 1) (PCall.pargs nm [] []) = (PRes.ok nm, [])) ∧
    (∀ fuel nm c acc n c', run fuel (PCall.pargs nm c acc) = (PRes.ok n, c') →
      (n = nm ∧ acc = []) ∨ ∃ a as_, n = Node.function nm (a :: as_)) ∧
    (∀ fuel s n c' nm args, run fuel (PCall.pmangled s) = (PRes.ok n, c') →
      n = Node.function nm args → args ≠ []) := by
  refine ⟨fun fuel nm => rfl, pargs_ok_result, ?_⟩
  intro fuel s n c' nm args h hfn
  cases fuel with
  | zero => exact absurd h (by simp [run])
  | succ k =>
    simp only [run] at h
    rcases hm : matchMangled s with _ | c1
    · simp only [hm] at h; exact absurd h (by simp)
    · simp only [hm] at h
      rcases hsp : run k (PCall.pspecial c1) with ⟨r2, c2⟩
      cases r2 with
      | ok sp =>
        simp only [hsp, Prod.mk.injEq, PRes.ok.injEq] at h
        have hnf := pspecial_ok_not_function k c1 sp c2 hsp
        rw [h.1, hfn] at hnf
        exact absurd hnf (by simp [isFunctionNode])
      | fail =>
        simp only [hsp] at h
        rcases hnm : run k (PCall.pname c2) with ⟨r3, c3⟩
        cases r3 with
        | ok nm0 =>
          simp only [hnm] at h
          rcases pargs_ok_result k nm0 c3 [] n c' h with ⟨hn, _⟩ | ⟨a, as_, hn⟩
          · have hnf := pname_ok_not_function k c2 nm0 c3 hnm
            rw [← hn, hfn] at hnf
            exact absurd hnf (by simp [isFunctionNode])
          · rw [hfn] at hn
            have hargs : args = a :: as_ := (Node.function.injEq .. ▸ hn).2
            rw [hargs]
            simp
        | fail => simp only [hnm] at h; exact absurd h (by simp)
        | crash => simp only [hnm] at h; exact absurd h (by simp)
        | oof => simp only [hnm] at h; exact absurd h (by simp)
      | crash => simp only [hsp] at h; exact absurd h (by simp)
      | oof => simp only [hsp] at h; exact absurd h (by simp)

/-- Witness for the C7 theorem: parsing _Z1fi consumes one argument type,
and the resulting function node's argument list is non-empty. -/
theorem c7_witness : ([Node.name "int"] : List Node) ≠ [] :=
  c7_function_never_empty_args.2.2 20 "_Z1fi".data
    (Node.function (Node.name "f") [Node.name "int"]) [] (Node.name "f") [Node.name "int"]
    rfl rfl

lemma mem_of_mem_takeWhile (p : Char → Bool) (l : List Char) {x : Char}
    (h : x ∈ l.takeWhile p) : x ∈ l := by
  induction l with
  | nil => simp at h
  | cons a t ih =>
    rw [List.takeWhile_cons] at h
    by_cases hp : p a
    · rw [if_pos hp] at h
      rcases List.mem_cons.mp h with rfl | h2
      · exact List.mem_cons.mpr (Or.inl rfl)
      · exact List.mem_cons_of_mem a (ih h2)
    · rw [if_neg hp] at h
      simp at h

lemma mem_of_mem_dropWhile (p : Char → Bool) (l : List Char) {x : Char}
    (h : x ∈ l.dropWhile p) : x ∈ l := by
  induction l with
  | nil => simp at h
  | cons a t ih =>
    rw [List.dropWhile_cons] at h
    by_cases hp : p a
    · rw [if_pos hp] at h
      exact List.mem_cons_of_mem a (ih h)
    · rw [if_neg hp] at h
      exact h

lemma cursorAccept_mem {d c c2 : List Char} (h : cursorAccept d c = some c2) :
    ∀ x ∈ c2, x ∈ c := by
  rw [cursorAccept] at h
  split at h
  · simp only [Option.some.injEq] at h
    subst h
    intro x hx
    exact List.drop_subset _ _ hx
  · exact absurd h (by simp)

lemma cursorAdvance_mem {n : Nat} {c pre post : List Char}
    (h : cursorAdvance n c = some (pre, post)) :
    (∀ x ∈ pre, x ∈ c) ∧ (∀ x ∈ post, x ∈ c) := by
  rw [cursorAdvance] at h
  split at h
  · exact absurd h (by simp)
  · simp only [Option.some.injEq, Prod.mk.injEq] at h
    obtain ⟨h1, h2⟩ := h
    subst h1 h2
    exact ⟨fun x hx => List.take_subset _ _ hx, fun x hx => List.drop_subset _ _ hx⟩

lemma cursorAdvanceUntil_mem {d : Char} : ∀ {c pre post : List Char},
    cursorAdvanceUntil d c = some (pre, post) →
    (∀ x ∈ pre, x ∈ c) ∧ (∀ x ∈ post, x ∈ c) := by
  intro c
  induction c with
  | nil => intro pre post h; exact absurd h (by simp [cursorAdvanceUntil])
  | cons a t ih =>
    intro pre post h
    rw [cursorAdvanceUntil] at h
    split at h
    · simp only [Option.some.injEq, Prod.mk.injEq] at h
      obtain ⟨h1, h2⟩ := h
      subst h1 h2
      exact ⟨by simp, fun x hx => List.mem_cons_of_mem a hx⟩
    · rcases hrec : cursorAdvanceUntil d t with _ | ⟨pre2, post2⟩
      · rw [hrec] at h; exact absurd h (by simp)
      · rw [hrec] at h
        simp only [Option.some.injEq, Prod.mk.injEq] at h
        obtain ⟨h1, h2⟩ := h
        subst h1 h2
        obtain ⟨hp, hq⟩ := ih hrec
        constructor
        · intro x hx
          rcases List.mem_cons.mp hx with rfl | h2
          · exact List.mem_cons.mpr (Or.inl rfl)
          · exact List.mem_cons_of_mem a (hp x h2)
        · exact fun x hx => List.mem_cons_of_mem a (hq x hx)

lemma matchName_inv {c : List Char} {tok : NameTok} {c1 : List Char}
    (h : matchName c = some (tok, c1)) :
    (∀ x ∈ c1, x ∈ c) ∧ (∀ cv ref, tok = NameTok.nested_name cv ref → 'N' ∈ c) := by
  rw [matchName.eq_def] at h
  split at h
  · simp only [Option.some.injEq, Prod.mk.injEq] at h
    obtain ⟨h1, h2⟩ := h
    subst h1; subst h2
    refine ⟨fun x hx => mem_of_mem_dropWhile _ _ hx, ?_⟩
    intro cv ref hk
    exact absurd hk (by simp)
  · split at h
    · -- c = 'C' :: d :: rest
      split at h
      · simp only [Option.some.injEq, Prod.mk.injEq] at h
        obtain ⟨h1, h2⟩ := h
        subst h1; subst h2
        refine ⟨fun x hx => by simp [List.mem_cons, hx], ?_⟩
        intro cv ref hk
        exact absurd hk (by simp)
      · exact absurd h (by simp)
    · -- c = 'D' :: d :: rest
      split at h
      · simp only [Option.some.injEq, Prod.mk.injEq] at h
        obtain ⟨h1, h2⟩ := h
        subst h1; subst h2
        refine ⟨fun x hx => by simp [List.mem_cons, hx], ?_⟩
        intro cv ref hk
        exact absurd hk (by simp)
      · exact absurd h (by simp)
    · -- c = 'S' :: d :: rest
      split at h
      · simp only [Option.some.injEq, Prod.mk.injEq] at h
        obtain ⟨h1, h2⟩ := h
        subst h1; subst h2
        refine ⟨fun x hx => by simp [List.mem_cons, hx], ?_⟩
        intro cv ref hk
        exact absurd hk (by simp)
      · split at h
        · simp only [Option.some.injEq, Prod.mk.injEq] at h
          obtain ⟨h1, h2⟩ := h
          subst h1; subst h2
          refine ⟨fun x hx => by simp [List.mem_cons, hx], ?_⟩
          intro cv ref hk
          exact absurd hk (by simp)
        · exact absurd h (by simp)
    · -- c = 'N' :: rest
      refine ⟨?_, fun cv ref hk => by simp⟩
      dsimp only at h
      split at h
      · -- dropWhile = rch :: rest3
        rename_i heq2
        split at h
        · simp only [Option.some.injEq, Prod.mk.injEq] at h
          obtain ⟨h1, h2⟩ := h
          subst h1; subst h2
          intro x hx
          refine List.mem_cons_of_mem _ (mem_of_mem_dropWhile isRVKChar _ ?_)
          rw [heq2]
          exact List.mem_cons_of_mem _ hx
        · simp only [Option.some.injEq, Prod.mk.injEq] at h
          obtain ⟨h1, h2⟩ := h
          subst h1; subst h2
          intro x hx
          exact List.mem_cons_of_mem _ (mem_of_mem_dropWhile isRVKChar _ hx)
      · simp only [Option.some.injEq, Prod.mk.injEq] at h
        obtain ⟨h1, h2⟩ := h
        subst h1; subst h2
        intro x hx
        simp at hx
    · -- c = 'I' :: rest
      simp only [Option.some.injEq, Prod.mk.injEq] at h
      obtain ⟨h1, h2⟩ := h
      subst h1; subst h2
      refine ⟨fun x hx => by simp [List.mem_cons, hx], ?_⟩
      intro cv ref hk
      exact absurd hk (by simp)
    · -- c = a :: b :: rest, operator lookup
      split at h
      · simp only [Option.some.injEq, Prod.mk.injEq] at h
        obtain ⟨h1, h2⟩ := h
        subst h1; subst h2
        refine ⟨fun x hx => by simp [List.mem_cons, hx], ?_⟩
        intro cv ref hk
        exact absurd hk (by simp)
      · exact absurd h (by simp)
    · exact absurd h (by simp)

lemma matchType_inv {c : List Char} {tok : TypeTok} {c1 : List Char}
    (h : matchType c = some (tok, c1)) : ∀ x ∈ c1, x ∈ c := by
  rw [matchType.eq_def] at h
  split at h
  · exact absurd h (by simp)
  · rename_i ch rest
    split at h
    · simp only [Option.some.injEq, Prod.mk.injEq] at h
      obtain ⟨h1, h2⟩ := h
      subst h1; subst h2
      exact fun x hx => by simp [List.mem_cons, hx]
    · split at h
      · split at h
        · split at h
          · simp only [Option.some.injEq, Prod.mk.injEq] at h
            obtain ⟨h1, h2⟩ := h
            subst h1; subst h2
            exact fun x hx => by simp [List.mem_cons, hx]
          · exact absurd h (by simp)
        · exact absurd h (by simp)
      · split at h
        · simp only [Option.some.injEq, Prod.mk.injEq] at h
          obtain ⟨h1, h2⟩ := h
          subst h1; subst h2
          exact fun x hx => mem_of_mem_dropWhile _ _ hx
        · split at h
          · simp only [Option.some.injEq, Prod.mk.injEq] at h
            obtain ⟨h1, h2⟩ := h
            subst h1; subst h2
            exact fun x hx => by simp [List.mem_cons, hx]
          · split at h
            · simp only [Option.some.injEq, Prod.mk.injEq] at h
              obtain ⟨h1, h2⟩ := h
              subst h1; subst h2
              exact fun x hx => by simp [List.mem_cons, hx]
            · split at h
              · simp only [Option.some.injEq, Prod.mk.injEq] at h
                obtain ⟨h1, h2⟩ := h
                subst h1; subst h2
                exact fun x hx => hx
              · exact absurd h (by simp)

lemma matchExprPrimary_inv {c : List Char} {b : Bool} {c1 : List Char}
    (h : matchExprPrimary c = some (b, c1)) : ∀ x ∈ c1, x ∈ c := by
  rw [matchExprPrimary.eq_def] at h
  split at h
  · simp only [Option.some.injEq, Prod.mk.injEq] at h
    obtain ⟨h1, h2⟩ := h
    subst h1; subst h2
    exact fun x hx => by simp [List.mem_cons] at hx ⊢; tauto
  · simp only [Option.some.injEq, Prod.mk.injEq] at h
    obtain ⟨h1, h2⟩ := h
    subst h1; subst h2
    exact fun x hx => List.mem_cons_of_mem 'L' hx
  · exact absurd h (by simp)

lemma matchSpecial_inv {c : List Char} {kc : Char} {c1 : List Char}
    (h : matchSpecial c = some (kc, c1)) : ∀ x ∈ c1, x ∈ c := by
  rw [matchSpecial.eq_def] at h
  split at h
  · split at h
    · simp only [Option.some.injEq, Prod.mk.injEq] at h
      obtain ⟨h1, h2⟩ := h
      subst h1; subst h2
      exact fun x hx => by simp [List.mem_cons, hx]
    · exact absurd h (by simp)
  · exact absurd h (by simp)

lemma matchMangled_inv {c c1 : List Char}
    (h : matchMangled c = some c1) : ∀ x ∈ c1, x ∈ c := by
  rw [matchMangled.eq_def] at h
  split at h
  · simp only [Option.some.injEq] at h
    subst h
    exact fun x hx => by simp [List.mem_cons, hx]
  · exact absurd h (by simp)

lemma notN_trans {c1 c : List Char} (hsub : ∀ x ∈ c1, x ∈ c) (hn : 'N' ∉ c) : 'N' ∉ c1 :=
  fun hx => hn (hsub 'N' hx)

lemma handle_cv_cvOK (q : List Char) (x : Node) : cvOK (_handle_cv q x) = cvOK x := by
  rw [_handle_cv]
  cases hq : cvQualifierSet q with
  | nil => rfl
  | cons a l => simp [cvOK, List.isEmpty]

lemma handle_cv_qnOK (q : List Char) (x : Node) : qnOK (_handle_cv q x) = qnOK x := by
  rw [_handle_cv]
  cases hq : cvQualifierSet q with
  | nil => rfl
  | cons a l => simp [qnOK]

lemma handle_indirect_cvOK (ref : List Char) (x : Node) :
    cvOK (_handle_indirect ref x) = cvOK x := by
  rw [_handle_indirect.eq_def]
  split <;> simp [cvOK]

lemma handle_indirect_qnOK (ref : List Char) (x : Node) :
    qnOK (_handle_indirect ref x) = qnOK x := by
  rw [_handle_indirect.eq_def]
  split <;> simp [qnOK]

lemma cvOKList_append (l : List Node) (x : Node) :
    cvOKList (l ++ [x]) = (cvOKList l && cvOK x) := by
  induction l with
  | nil => simp [cvOKList]
  | cons a t ih => simp [cvOKList, ih, Bool.and_assoc]

lemma qnOKList_append (l : List Node) (x : Node) :
    qnOKList (l ++ [x]) = (qnOKList l && qnOK x) := by
  induction l with
  | nil => simp [qnOKList]
  | cons a t ih => simp [qnOKList, ih, Bool.and_assoc]

lemma std_names_inv (code : String) (vs : List Node) (h : _std_names code = some vs) :
    vs.isEmpty = false ∧ qnOKList vs = true ∧ cvOKList vs = true := by
  rw [_std_names.eq_def] at h
  split at h
  all_goals first
    | (simp only [Option.some.injEq] at h; subst h; exact ⟨rfl, rfl, rfl⟩)
    | simp at h

lemma source_name_inv (d c : List Char) (r : PRes Node) (c2 : List Char)
    (h : _parse_source_name d c = (r, c2)) :
    (∀ x ∈ c2, x ∈ c) ∧ (∀ n, r = PRes.ok n → cvOK n = true ∧ qnOK n = true) := by
  rw [_parse_source_name] at h
  rcases hv : cursorAdvance (digitsToNat d) c with _ | ⟨pre, post⟩
  · simp only [hv, Prod.mk.injEq] at h
    obtain ⟨h1, h2⟩ := h
    subst h1; subst h2
    exact ⟨fun x hx => hx, fun n hr => nomatch hr⟩
  · simp only [hv, Prod.mk.injEq] at h
    obtain ⟨h1, h2⟩ := h
    subst h1; subst h2
    refine ⟨(cursorAdvance_mem hv).2, fun n hr => ?_⟩
    injection hr with hh
    subst hh
    exact ⟨rfl, rfl⟩

/-- Invariants of every production, proved together by induction on fuel:
the cursor a production leaves behind contains no character that was not in
its input cursor (stated for the character N), every node an ok result
carries has non-empty qualifier sets on all its cv_qual subnodes, and -
when the input cursor contains no nested-name introducer N - all its
qual_name subnodes are non-empty. -/
lemma run_invariants : ∀ fuel,
    (∀ c r c2, run fuel (PCall.pname c) = (r, c2) →
      ('N' ∉ c → 'N' ∉ c2) ∧
      (∀ n, r = PRes.ok n → cvOK n = true ∧ ('N' ∉ c → qnOK n = true))) ∧
    (∀ c r c2, run fuel (PCall.ptype c) = (r, c2) →
      ('N' ∉ c → 'N' ∉ c2) ∧
      (∀ n, r = PRes.ok n → cvOK n = true ∧ ('N' ∉ c → qnOK n = true))) ∧
    (∀ c r c2, run fuel (PCall.pexpr c) = (r, c2) →
      ('N' ∉ c → 'N' ∉ c2) ∧
      (∀ n, r = PRes.ok n → cvOK n = true ∧ ('N' ∉ c → qnOK n = true))) ∧
    (∀ c r c2, run fuel (PCall.pspecial c) = (r, c2) →
      ('N' ∉ c → 'N' ∉ c2) ∧
      (∀ n, r = PRes.ok n → cvOK n = true ∧ ('N' ∉ c → qnOK n = true))) ∧
    (∀ c r c2, run fuel (PCall.pmangled c) = (r, c2) →
      ('N' ∉ c → 'N' ∉ c2) ∧
      (∀ n, r = PRes.ok n → cvOK n = true ∧ ('N' ∉ c → qnOK n = true))) ∧
    (∀ node c r c2, run fuel (PCall.pfold node c) = (r, c2) →
      ('N' ∉ c → 'N' ∉ c2) ∧
      (∀ n, r = PRes.ok n → (cvOK node = true → cvOK n = true) ∧
        ('N' ∉ c → qnOK node = true → qnOK n = true))) ∧
    (∀ c acc r c2, run fuel (PCall.puntil_name c acc) = (r, c2) →
      ('N' ∉ c → 'N' ∉ c2) ∧
      (∀ n, r = PRes.ok n → (cvOKList acc = true → cvOK n = true) ∧
        ('N' ∉ c → acc ≠ [] → qnOKList acc = true → qnOK n = true))) ∧
    (∀ c acc r c2, run fuel (PCall.puntil_type c acc) = (r, c2) →
      ('N' ∉ c → 'N' ∉ c2) ∧
      (∀ n, r = PRes.ok n → (cvOKList acc = true → cvOK n = true) ∧
        ('N' ∉ c → qnOKList acc = true → qnOK n = true))) ∧
    (∀ nm c acc r c2, run fuel (PCall.pargs nm c acc) = (r, c2) →
      ('N' ∉ c → 'N' ∉ c2) ∧
      (∀ n, r = PRes.ok n → (cvOK nm = true → cvOKList acc = true → cvOK n = true) ∧
        ('N' ∉ c → qnOK nm = true → qnOKList acc = true → qnOK n = true))) := by
  intro fuel
  induction fuel with
  | zero =>
    refine ⟨?_, ?_, ?_, ?_, ?_, ?_, ?_, ?_, ?_⟩
    · intro c r c2 h
      simp only [run, PCall.cur, Prod.mk.injEq] at h
      obtain ⟨h1, h2⟩ := h; subst h1; subst h2
      exact ⟨fun hn => hn, fun n hr => nomatch hr⟩
    · intro c r c2 h
      simp only [run, PCall.cur, Prod.mk.injEq] at h
      obtain ⟨h1, h2⟩ := h; subst h1; subst h2
      exact ⟨fun hn => hn, fun n hr => nomatch hr⟩
    · intro c r c2 h
      simp only [run, PCall.cur, Prod.mk.injEq] at h
      obtain ⟨h1, h2⟩ := h; subst h1; subst h2
      exact ⟨fun hn => hn, fun n hr => nomatch hr⟩
    · intro c r c2 h
      simp only [run, PCall.cur, Prod.mk.injEq] at h
      obtain ⟨h1, h2⟩ := h; subst h1; subst h2
      exact ⟨fun hn => hn, fun n hr => nomatch hr⟩
    · intro c r c2 h
      simp only [run, PCall.cur, Prod.mk.injEq] at h
      obtain ⟨h1, h2⟩ := h; subst h1; subst h2
      exact ⟨fun hn => hn, fun n hr => nomatch hr⟩
    · intro node c r c2 h
      simp only [run, PCall.cur, Prod.mk.injEq] at h
      obtain ⟨h1, h2⟩ := h; subst h1; subst h2
      exact ⟨fun hn => hn, fun n hr => nomatch hr⟩
    · intro c acc r c2 h
      simp only [run, PCall.cur, Prod.mk.injEq] at h
      obtain ⟨h1, h2⟩ := h; subst h1; subst h2
      exact ⟨fun hn => hn, fun n hr => nomatch hr⟩
    · intro c acc r c2 h
      simp only [run, PCall.cur, Prod.mk.injEq] at h
      obtain ⟨h1, h2⟩ := h; subst h1; subst h2
      exact ⟨fun hn => hn, fun n hr => nomatch hr⟩
    · intro nm c acc r c2 h
      simp only [run, PCall.cur, Prod.mk.injEq] at h
      obtain ⟨h1, h2⟩ := h; subst h1; subst h2
      exact ⟨fun hn => hn, fun n hr => nomatch hr⟩
  | succ fuel ih =>
    obtain ⟨ihname, ihtype, ihexpr, ihspecial, ihmangled, ihfold, ihuname, ihutype, ihargs⟩ := ih
    refine ⟨?_, ?_, ?_, ?_, ?_, ?_, ?_, ?_, ?_⟩
    · -- pname
      intro c r c2 h
      simp only [run] at h
      rcases hm : matchName c with _ | ⟨tok, c1⟩
      · simp only [hm, Prod.mk.injEq] at h
        obtain ⟨h1, h2⟩ := h; subst h1; subst h2
        exact ⟨fun hn => hn, fun n hr => nomatch hr⟩
      · obtain ⟨hm_sub, hm_nested⟩ := matchName_inv hm
        simp only [hm] at h
        cases tok with
        | source_name digits =>
          rcases hs : _parse_source_name digits c1 with ⟨r0, c1b⟩
          obtain ⟨hs_sub, hs_ok⟩ := source_name_inv digits c1 r0 c1b hs
          cases r0 with
          | ok node =>
            simp only [hs] at h
            obtain ⟨hf_noN, hf_ok⟩ := ihfold node c1b r c2 h
            refine ⟨fun hn => hf_noN (notN_trans hs_sub (notN_trans hm_sub hn)), ?_⟩
            intro n hr
            obtain ⟨hcv, hqn⟩ := hf_ok n hr
            exact ⟨hcv (hs_ok node rfl).1,
              fun hn => hqn (notN_trans hs_sub (notN_trans hm_sub hn)) (hs_ok node rfl).2⟩
          | fail =>
            simp only [hs, Prod.mk.injEq] at h
            obtain ⟨h1, h2⟩ := h; subst h1; subst h2
            exact ⟨fun hn => notN_trans hs_sub (notN_trans hm_sub hn), fun n hr => nomatch hr⟩
          | crash =>
            simp only [hs, Prod.mk.injEq] at h
            obtain ⟨h1, h2⟩ := h; subst h1; subst h2
            exact ⟨fun hn => notN_trans hs_sub (notN_trans hm_sub hn), fun n hr => nomatch hr⟩
          | oof =>
            simp only [hs, Prod.mk.injEq] at h
            obtain ⟨h1, h2⟩ := h; subst h1; subst h2
            exact ⟨fun hn => notN_trans hs_sub (notN_trans hm_sub hn), fun n hr => nomatch hr⟩
        | ctor_name code =>
          rcases hc : _ctor_dtor_map code with _ | v
          · simp only [hc, Prod.mk.injEq] at h
            obtain ⟨h1, h2⟩ := h; subst h1; subst h2
            exact ⟨fun hn => notN_trans hm_sub hn, fun n hr => nomatch hr⟩
          · simp only [hc] at h
            obtain ⟨hf_noN, hf_ok⟩ := ihfold (Node.ctor v) c1 r c2 h
            refine ⟨fun hn => hf_noN (notN_trans hm_sub hn), ?_⟩
            intro n hr
            obtain ⟨hcv, hqn⟩ := hf_ok n hr
            exact ⟨hcv rfl, fun hn => hqn (notN_trans hm_sub hn) rfl⟩
        | dtor_name code =>
          rcases hc : _ctor_dtor_map code with _ | v
          · simp only [hc, Prod.mk.injEq] at h
            obtain ⟨h1, h2⟩ := h; subst h1; subst h2
            exact ⟨fun hn => notN_trans hm_sub hn, fun n hr => nomatch hr⟩
          · simp only [hc] at h
            obtain ⟨hf_noN, hf_ok⟩ := ihfold (Node.dtor v) c1 r c2 h
            refine ⟨fun hn => hf_noN (notN_trans hm_sub hn), ?_⟩
            intro n hr
            obtain ⟨hcv, hqn⟩ := hf_ok n hr
            exact ⟨hcv rfl, fun hn => hqn (notN_trans hm_sub hn) rfl⟩
        | std_name code =>
          rcases hc : _std_names code with _ | vs
          · simp only [hc, Prod.mk.injEq] at h
            obtain ⟨h1, h2⟩ := h; subst h1; subst h2
            exact ⟨fun hn => notN_trans hm_sub hn, fun n hr => nomatch hr⟩
          · simp only [hc] at h
            obtain ⟨hne, hqnl, hcvl⟩ := std_names_inv code vs hc
            obtain ⟨hf_noN, hf_ok⟩ := ihfold (Node.qual_name vs) c1 r c2 h
            refine ⟨fun hn => hf_noN (notN_trans hm_sub hn), ?_⟩
            intro n hr
            obtain ⟨hcv, hqn⟩ := hf_ok n hr
            refine ⟨hcv (by simp [cvOK, hcvl]), ?_⟩
            intro hn
            exact hqn (notN_trans hm_sub hn) (by simp [qnOK, hne, hqnl])
        | operator_name code =>
          rcases hc : _operators code with _ | v
          · simp only [hc, Prod.mk.injEq] at h
            obtain ⟨h1, h2⟩ := h; subst h1; subst h2
            exact ⟨fun hn => notN_trans hm_sub hn, fun n hr => nomatch hr⟩
          · simp only [hc] at h
            obtain ⟨hf_noN, hf_ok⟩ := ihfold (Node.operator v) c1 r c2 h
            refine ⟨fun hn => hf_noN (notN_trans hm_sub hn), ?_⟩
            intro n hr
            obtain ⟨hcv, hqn⟩ := hf_ok n hr
            exact ⟨hcv rfl, fun hn => hqn (notN_trans hm_sub hn) rfl⟩
        | std_pfx =>
          rcases hr : run fuel (PCall.pname c1) with ⟨r0, c1b⟩
          obtain ⟨hn_noN, hn_ok⟩ := ihname c1 r0 c1b hr
          cases r0 with
          | ok nm =>
            simp only [hr] at h
            split at h
            · -- nm = qual_name vs
              rename_i vs
              have hcv0 : cvOKList vs = true := by
                have := (hn_ok _ rfl).1
                simpa [cvOK] using this
              obtain ⟨hf_noN, hf_ok⟩ := ihfold (Node.qual_name (Node.name "std" :: vs)) c1b r c2 h
              refine ⟨fun hn => hf_noN (hn_noN (notN_trans hm_sub hn)), ?_⟩
              intro n hr2
              obtain ⟨hcv, hqn⟩ := hf_ok n hr2
              refine ⟨hcv (by simp [cvOK, cvOKList, hcv0]), ?_⟩
              intro hn
              have hq0 : qnOKList vs = true := by
                have := (hn_ok _ rfl).2 (notN_trans hm_sub hn)
                simp only [qnOK, Bool.and_eq_true] at this
                exact this.2
              exact hqn (hn_noN (notN_trans hm_sub hn)) (by simp [qnOK, qnOKList, hq0])
            · -- nm not a qual_name
              obtain ⟨hf_noN, hf_ok⟩ := ihfold (Node.qual_name [Node.name "std", nm]) c1b r c2 h
              refine ⟨fun hn => hf_noN (hn_noN (notN_trans hm_sub hn)), ?_⟩
              intro n hr2
              obtain ⟨hcv, hqn⟩ := hf_ok n hr2
              refine ⟨hcv (by simp [cvOK, cvOKList, (hn_ok _ rfl).1]), ?_⟩
              intro hn
              exact hqn (hn_noN (notN_trans hm_sub hn))
                (by simp [qnOK, qnOKList, (hn_ok _ rfl).2 (notN_trans hm_sub hn)])
          | fail =>
            simp only [hr, Prod.mk.injEq] at h
            obtain ⟨h1, h2⟩ := h; subst h1; subst h2
            exact ⟨fun hn => hn_noN (notN_trans hm_sub hn), fun n hr2 => nomatch hr2⟩
          | crash =>
            simp only [hr, Prod.mk.injEq] at h
            obtain ⟨h1, h2⟩ := h; subst h1; subst h2
            exact ⟨fun hn => hn_noN (notN_trans hm_sub hn), fun n hr2 => nomatch hr2⟩
          | oof =>
            simp only [hr, Prod.mk.injEq] at h
            obtain ⟨h1, h2⟩ := h; subst h1; subst h2
            exact ⟨fun hn => hn_noN (notN_trans hm_sub hn), fun n hr2 => nomatch hr2⟩
        | nested_name cv ref =>
          have hNin : 'N' ∈ c := hm_nested cv ref rfl
          rcases hr : run fuel (PCall.puntil_name c1 []) with ⟨r0, c1b⟩
          obtain ⟨hu_noN, hu_ok⟩ := ihuname c1 [] r0 c1b hr
          cases r0 with
          | ok nd =>
            simp only [hr] at h
            obtain ⟨hf_noN, hf_ok⟩ := ihfold (_handle_indirect ref (_handle_cv cv nd)) c1b r c2 h
            refine ⟨fun hn => absurd hNin hn, ?_⟩
            intro n hr2
            obtain ⟨hcv, hqn⟩ := hf_ok n hr2
            refine ⟨?_, fun hn => absurd hNin hn⟩
            apply hcv
            rw [handle_indirect_cvOK, handle_cv_cvOK]
            exact (hu_ok nd rfl).1 rfl
          | fail =>
            simp only [hr] at h
            split at h
            · -- wrapped value is pynone
              simp only [Prod.mk.injEq] at h
              obtain ⟨h1, h2⟩ := h; subst h1; subst h2
              exact ⟨fun hn => absurd hNin hn, fun n hr2 => nomatch hr2⟩
            · obtain ⟨hf_noN, hf_ok⟩ := ihfold (_handle_indirect ref (_handle_cv cv Node.pynone)) c1b r c2 h
              refine ⟨fun hn => absurd hNin hn, ?_⟩
              intro n hr2
              obtain ⟨hcv, hqn⟩ := hf_ok n hr2
              refine ⟨?_, fun hn => absurd hNin hn⟩
              apply hcv
              rw [handle_indirect_cvOK, handle_cv_cvOK]
              rfl
          | crash =>
            simp only [hr, Prod.mk.injEq] at h
            obtain ⟨h1, h2⟩ := h; subst h1; subst h2
            exact ⟨fun hn => absurd hNin hn, fun n hr2 => nomatch hr2⟩
          | oof =>
            simp only [hr, Prod.mk.injEq] at h
            obtain ⟨h1, h2⟩ := h; subst h1; subst h2
            exact ⟨fun hn => absurd hNin hn, fun n hr2 => nomatch hr2⟩
        | template_args =>
          rcases hr : run fuel (PCall.puntil_type c1 []) with ⟨r0, c1b⟩
          obtain ⟨hu_noN, hu_ok⟩ := ihutype c1 [] r0 c1b hr
          cases r0 with
          | ok nd =>
            simp only [hr] at h
            obtain ⟨hf_noN, hf_ok⟩ := ihfold nd c1b r c2 h
            refine ⟨fun hn => hf_noN (hu_noN (notN_trans hm_sub hn)), ?_⟩
            intro n hr2
            obtain ⟨hcv, hqn⟩ := hf_ok n hr2
            exact ⟨hcv ((hu_ok nd rfl).1 rfl),
              fun hn => hqn (hu_noN (notN_trans hm_sub hn))
                ((hu_ok nd rfl).2 (notN_trans hm_sub hn) rfl)⟩
          | fail =>
            simp only [hr, Prod.mk.injEq] at h
            obtain ⟨h1, h2⟩ := h; subst h1; subst h2
            exact ⟨fun hn => hu_noN (notN_trans hm_sub hn), fun n hr2 => nomatch hr2⟩
          | crash =>
            simp only [hr, Prod.mk.injEq] at h
            obtain ⟨h1, h2⟩ := h; subst h1; subst h2
            exact ⟨fun hn => hu_noN (notN_trans hm_sub hn), fun n hr2 => nomatch hr2⟩
          | oof =>
            simp only [hr, Prod.mk.injEq] at h
            obtain ⟨h1, h2⟩ := h; subst h1; subst h2
            exact ⟨fun hn => hu_noN (notN_trans hm_sub hn), fun n hr2 => nomatch hr2⟩
    · -- ptype
      intro c r c2 h
      simp only [run] at h
      rcases hm : matchType c with _ | ⟨tok, c1⟩
      · simp only [hm] at h
        exact ihname c r c2 h
      · have hm_sub := matchType_inv hm
        simp only [hm] at h
        cases tok with
        | builtin_type code =>
          rcases hb : _builtin_types code with _ | v
          · simp only [hb, Prod.mk.injEq] at h
            obtain ⟨h1, h2⟩ := h; subst h1; subst h2
            exact ⟨fun hn => notN_trans hm_sub hn, fun n hr => nomatch hr⟩
          · simp only [hb, Prod.mk.injEq] at h
            obtain ⟨h1, h2⟩ := h; subst h1; subst h2
            refine ⟨fun hn => notN_trans hm_sub hn, fun n hr => ?_⟩
            injection hr with hh
            subst hh
            exact ⟨rfl, fun _ => rfl⟩
        | qualified_type q =>
          rcases hr : run fuel (PCall.ptype c1) with ⟨r0, c1b⟩
          obtain ⟨ht_noN, ht_ok⟩ := ihtype c1 r0 c1b hr
          cases r0 with
          | ok ty =>
            simp only [hr, Prod.mk.injEq] at h
            obtain ⟨h1, h2⟩ := h; subst h1; subst h2
            refine ⟨fun hn => ht_noN (notN_trans hm_sub hn), fun n hr2 => ?_⟩
            injection hr2 with hh
            subst hh
            constructor
            · rw [handle_cv_cvOK]
              exact (ht_ok ty rfl).1
            · intro hn
              rw [handle_cv_qnOK]
              exact (ht_ok ty rfl).2 (notN_trans hm_sub hn)
          | fail =>
            simp only [hr, Prod.mk.injEq] at h
            obtain ⟨h1, h2⟩ := h; subst h1; subst h2
            exact ⟨fun hn => ht_noN (notN_trans hm_sub hn), fun n hr2 => nomatch hr2⟩
          | crash =>
            simp only [hr, Prod.mk.injEq] at h
            obtain ⟨h1, h2⟩ := h; subst h1; subst h2
            exact ⟨fun hn => ht_noN (notN_trans hm_sub hn), fun n hr2 => nomatch hr2⟩
          | oof =>
            simp only [hr, Prod.mk.injEq] at h
            obtain ⟨h1, h2⟩ := h; subst h1; subst h2
            exact ⟨fun hn => ht_noN (notN_trans hm_sub hn), fun n hr2 => nomatch hr2⟩
        | template_param =>
          rcases hadv : cursorAdvanceUntil '_' c1 with _ | ⟨seq, c1b⟩
          · simp only [hadv, Prod.mk.injEq] at h
            obtain ⟨h1, h2⟩ := h; subst h1; subst h2
            exact ⟨fun hn => notN_trans hm_sub hn, fun n hr => nomatch hr⟩
          · obtain ⟨hpre_mem, hpost_mem⟩ := cursorAdvanceUntil_mem hadv
            simp only [hadv] at h
            split at h
            · simp only [Prod.mk.injEq] at h
              obtain ⟨h1, h2⟩ := h; subst h1; subst h2
              refine ⟨fun hn => notN_trans hpost_mem (notN_trans hm_sub hn), fun n hr => ?_⟩
              injection hr with hh
              subst hh
              exact ⟨rfl, fun _ => rfl⟩
            · rcases hpi : pyInt36 seq with v | _ | _ | _ <;> simp only [hpi, Prod.mk.injEq] at h <;>
                obtain ⟨h1, h2⟩ := h <;> subst h1 <;> subst h2
              · refine ⟨fun hn => notN_trans hpost_mem (notN_trans hm_sub hn), fun n hr => ?_⟩
                injection hr with hh
                subst hh
                exact ⟨rfl, fun _ => rfl⟩
              · exact ⟨fun hn => notN_trans hpost_mem (notN_trans hm_sub hn), fun n hr => nomatch hr⟩
              · exact ⟨fun hn => notN_trans hpost_mem (notN_trans hm_sub hn), fun n hr => nomatch hr⟩
              · exact ⟨fun hn => notN_trans hpost_mem (notN_trans hm_sub hn), fun n hr => nomatch hr⟩
        | indirect_type q =>
          rcases hr : run fuel (PCall.ptype c1) with ⟨r0, c1b⟩
          obtain ⟨ht_noN, ht_ok⟩ := ihtype c1 r0 c1b hr
          cases r0 with
          | ok ty =>
            simp only [hr, Prod.mk.injEq] at h
            obtain ⟨h1, h2⟩ := h; subst h1; subst h2
            refine ⟨fun hn => ht_noN (notN_trans hm_sub hn), fun n hr2 => ?_⟩
            injection hr2 with hh
            subst hh
            constructor
            · rw [handle_indirect_cvOK]
              exact (ht_ok ty rfl).1
            · intro hn
              rw [handle_indirect_qnOK]
              exact (ht_ok ty rfl).2 (notN_trans hm_sub hn)
          | fail =>
            simp only [hr, Prod.mk.injEq] at h
            obtain ⟨h1, h2⟩ := h; subst h1; subst h2
            exact ⟨fun hn => ht_noN (notN_trans hm_sub hn), fun n hr2 => nomatch hr2⟩
          | crash =>
            simp only [hr, Prod.mk.injEq] at h
            obtain ⟨h1, h2⟩ := h; subst h1; subst h2
            exact ⟨fun hn => ht_noN (notN_trans hm_sub hn), fun n hr2 => nomatch hr2⟩
          | oof =>
            simp only [hr, Prod.mk.injEq] at h
            obtain ⟨h1, h2⟩ := h; subst h1; subst h2
            exact ⟨fun hn => ht_noN (notN_trans hm_sub hn), fun n hr2 => nomatch hr2⟩
        | expr_primary =>
          obtain ⟨he_noN, he_ok⟩ := ihexpr c1 r c2 h
          exact ⟨fun hn => he_noN (notN_trans hm_sub hn),
            fun n hr => ⟨(he_ok n hr).1, fun hn => (he_ok n hr).2 (notN_trans hm_sub hn)⟩⟩
    · -- pexpr
      intro c r c2 h
      simp only [run] at h
      rcases hm : matchExprPrimary c with _ | ⟨b, c1⟩
      · simp only [hm, Prod.mk.injEq] at h
        obtain ⟨h1, h2⟩ := h; subst h1; subst h2
        exact ⟨fun hn => hn, fun n hr => nomatch hr⟩
      · have hm_sub := matchExprPrimary_inv hm
        simp only [hm] at h
        cases b with
        | true =>
          simp only [if_true] at h
          rcases hadv : cursorAdvanceUntil 'E' c1 with _ | ⟨sub, c1b⟩
          · simp only [hadv, Prod.mk.injEq] at h
            obtain ⟨h1, h2⟩ := h; subst h1; subst h2
            exact ⟨fun hn => notN_trans hm_sub hn, fun n hr => nomatch hr⟩
          · obtain ⟨hsub_mem, hpost_mem⟩ := cursorAdvanceUntil_mem hadv
            simp only [hadv] at h
            rcases hrm : run fuel (PCall.pmangled sub) with ⟨rsub, csub⟩
            obtain ⟨hman_noN, hman_ok⟩ := ihmangled sub rsub csub hrm
            simp only [hrm, Prod.mk.injEq] at h
            obtain ⟨h1, h2⟩ := h; subst h1; subst h2
            refine ⟨fun hn => notN_trans hpost_mem (notN_trans hm_sub hn), fun n hr => ?_⟩
            obtain ⟨hcv, hqn⟩ := hman_ok n hr
            exact ⟨hcv, fun hn => hqn (notN_trans hsub_mem (notN_trans hm_sub hn))⟩
        | false =>
          simp only [if_false, Bool.false_eq_true] at h
          rcases hr : run fuel (PCall.ptype c1) with ⟨r0, c1b⟩
          obtain ⟨ht_noN, ht_ok⟩ := ihtype c1 r0 c1b hr
          cases r0 with
          | ok ty =>
            simp only [hr] at h
            rcases hadv : cursorAdvanceUntil 'E' c1b with _ | ⟨v, c1c⟩
            · simp only [hadv, Prod.mk.injEq] at h
              obtain ⟨h1, h2⟩ := h; subst h1; subst h2
              exact ⟨fun hn => ht_noN (notN_trans hm_sub hn), fun n hr2 => nomatch hr2⟩
            · obtain ⟨hv_mem, hc_mem⟩ := cursorAdvanceUntil_mem hadv
              simp only [hadv, Prod.mk.injEq] at h
              obtain ⟨h1, h2⟩ := h; subst h1; subst h2
              refine ⟨fun hn => notN_trans hc_mem (ht_noN (notN_trans hm_sub hn)), fun n hr2 => ?_⟩
              injection hr2 with hh
              subst hh
              constructor
              · simpa [cvOK] using (ht_ok ty rfl).1
              · intro hn
                simpa [qnOK] using (ht_ok ty rfl).2 (notN_trans hm_sub hn)
          | fail =>
            simp only [hr, Prod.mk.injEq] at h
            obtain ⟨h1, h2⟩ := h; subst h1; subst h2
            exact ⟨fun hn => ht_noN (notN_trans hm_sub hn), fun n hr2 => nomatch hr2⟩
          | crash =>
            simp only [hr, Prod.mk.injEq] at h
            obtain ⟨h1, h2⟩ := h; subst h1; subst h2
            exact ⟨fun hn => ht_noN (notN_trans hm_sub hn), fun n hr2 => nomatch hr2⟩
          | oof =>
            simp only [hr, Prod.mk.injEq] at h
            obtain ⟨h1, h2⟩ := h; subst h1; subst h2
            exact ⟨fun hn => ht_noN (notN_trans hm_sub hn), fun n hr2 => nomatch hr2⟩
    · -- pspecial
      intro c r c2 h
      simp only [run] at h
      rcases hm : matchSpecial c with _ | ⟨kc, c1⟩
      · simp only [hm, Prod.mk.injEq] at h
        obtain ⟨h1, h2⟩ := h; subst h1; subst h2
        exact ⟨fun hn => hn, fun n hr => nomatch hr⟩
      · have hm_sub := matchSpecial_inv hm
        simp only [hm] at h
        rcases hr : run fuel (PCall.ptype c1) with ⟨r0, c1b⟩
        obtain ⟨ht_noN, ht_ok⟩ := ihtype c1 r0 c1b hr
        cases r0 with
        | ok nm =>
          simp only [hr, Prod.mk.injEq] at h
          obtain ⟨h1, h2⟩ := h; subst h1; subst h2
          refine ⟨fun hn => ht_noN (notN_trans hm_sub hn), fun n hr2 => ?_⟩
          injection hr2 with hh
          subst hh
          have hcv := (ht_ok nm rfl).1
          constructor
          · split_ifs <;> simpa [cvOK] using hcv
          · intro hn
            have hqn := (ht_ok nm rfl).2 (notN_trans hm_sub hn)
            split_ifs <;> simpa [qnOK] using hqn
        | fail =>
          simp only [hr, Prod.mk.injEq] at h
          obtain ⟨h1, h2⟩ := h; subst h1; subst h2
          exact ⟨fun hn => ht_noN (notN_trans hm_sub hn), fun n hr2 => nomatch hr2⟩
        | crash =>
          simp only [hr, Prod.mk.injEq] at h
          obtain ⟨h1, h2⟩ := h; subst h1; subst h2
          exact ⟨fun hn => ht_noN (notN_trans hm_sub hn), fun n hr2 => nomatch hr2⟩
        | oof =>
          simp only [hr, Prod.mk.injEq] at h
          obtain ⟨h1, h2⟩ := h; subst h1; subst h2
          exact ⟨fun hn => ht_noN (notN_trans hm_sub hn), fun n hr2 => nomatch hr2⟩
    · -- pmangled
      intro c r c2 h
      simp only [run] at h
      rcases hm : matchMangled c with _ | c1
      · simp only [hm, Prod.mk.injEq] at h
        obtain ⟨h1, h2⟩ := h; subst h1; subst h2
        exact ⟨fun hn => hn, fun n hr => nomatch hr⟩
      · have hm_sub := matchMangled_inv hm
        simp only [hm] at h
        rcases hsp : run fuel (PCall.pspecial c1) with ⟨r0, c1b⟩
        obtain ⟨hsp_noN, hsp_ok⟩ := ihspecial c1 r0 c1b hsp
        cases r0 with
        | ok sp =>
          simp only [hsp, Prod.mk.injEq] at h
          obtain ⟨h1, h2⟩ := h; subst h1; subst h2
          refine ⟨fun hn => hsp_noN (notN_trans hm_sub hn), fun n hr2 => ?_⟩
          injection hr2 with hh
          subst hh
          exact ⟨(hsp_ok sp rfl).1, fun hn => (hsp_ok sp rfl).2 (notN_trans hm_sub hn)⟩
        | fail =>
          simp only [hsp] at h
          rcases hnm : run fuel (PCall.pname c1b) with ⟨r1, c1c⟩
          obtain ⟨hn_noN, hn_ok⟩ := ihname c1b r1 c1c hnm
          cases r1 with
          | ok nm0 =>
            simp only [hnm] at h
            obtain ⟨ha_noN, ha_ok⟩ := ihargs nm0 c1c [] r c2 h
            refine ⟨fun hn => ha_noN (hn_noN (hsp_noN (notN_trans hm_sub hn))), fun n hr2 => ?_⟩
            obtain ⟨hcv, hqn⟩ := ha_ok n hr2
            refine ⟨hcv (hn_ok nm0 rfl).1 rfl, ?_⟩
            intro hn
            exact hqn (hn_noN (hsp_noN (notN_trans hm_sub hn)))
              ((hn_ok nm0 rfl).2 (hsp_noN (notN_trans hm_sub hn))) rfl
          | fail =>
            simp only [hnm, Prod.mk.injEq] at h
            obtain ⟨h1, h2⟩ := h; subst h1; subst h2
            exact ⟨fun hn => hn_noN (hsp_noN (notN_trans hm_sub hn)), fun n hr2 => nomatch hr2⟩
          | crash =>
            simp only [hnm, Prod.mk.injEq] at h
            obtain ⟨h1, h2⟩ := h; subst h1; subst h2
            exact ⟨fun hn => hn_noN (hsp_noN (notN_trans hm_sub hn)), fun n hr2 => nomatch hr2⟩
          | oof =>
            simp only [hnm, Prod.mk.injEq] at h
            obtain ⟨h1, h2⟩ := h; subst h1; subst h2
            exact ⟨fun hn => hn_noN (hsp_noN (notN_trans hm_sub hn)), fun n hr2 => nomatch hr2⟩
        | crash =>
          simp only [hsp, Prod.mk.injEq] at h
          obtain ⟨h1, h2⟩ := h; subst h1; subst h2
          exact ⟨fun hn => hsp_noN (notN_trans hm_sub hn), fun n hr2 => nomatch hr2⟩
        | oof =>
          simp only [hsp, Prod.mk.injEq] at h
          obtain ⟨h1, h2⟩ := h; subst h1; subst h2
          exact ⟨fun hn => hsp_noN (notN_trans hm_sub hn), fun n hr2 => nomatch hr2⟩
    · -- pfold
      intro node c r c2 h
      simp only [run] at h
      rcases ha : cursorAccept ['I'] c with _ | c1
      · simp only [ha, Prod.mk.injEq] at h
        obtain ⟨h1, h2⟩ := h; subst h1; subst h2
        refine ⟨fun hn => hn, fun n hr => ?_⟩
        injection hr with hh
        subst hh
        exact ⟨fun hcv => hcv, fun _ hqn => hqn⟩
      · have ha_mem := cursorAccept_mem ha
        simp only [ha] at h
        rcases hr : run fuel (PCall.puntil_type c1 []) with ⟨r0, c1b⟩
        obtain ⟨hu_noN, hu_ok⟩ := ihutype c1 [] r0 c1b hr
        cases r0 with
        | ok targs =>
          simp only [hr, Prod.mk.injEq] at h
          obtain ⟨h1, h2⟩ := h; subst h1; subst h2
          refine ⟨fun hn => hu_noN (notN_trans ha_mem hn), fun n hr2 => ?_⟩
          injection hr2 with hh
          subst hh
          constructor
          · intro hcv
            simp [cvOK, cvOKList, hcv, (hu_ok targs rfl).1 rfl]
          · intro hn hqn
            simp [qnOK, qnOKList, hqn,
              (hu_ok targs rfl).2 (notN_trans ha_mem hn) rfl]
        | fail =>
          simp only [hr, Prod.mk.injEq] at h
          obtain ⟨h1, h2⟩ := h; subst h1; subst h2
          exact ⟨fun hn => hu_noN (notN_trans ha_mem hn), fun n hr2 => nomatch hr2⟩
        | crash =>
          simp only [hr, Prod.mk.injEq] at h
          obtain ⟨h1, h2⟩ := h; subst h1; subst h2
          exact ⟨fun hn => hu_noN (notN_trans ha_mem hn), fun n hr2 => nomatch hr2⟩
        | oof =>
          simp only [hr, Prod.mk.injEq] at h
          obtain ⟨h1, h2⟩ := h; subst h1; subst h2
          exact ⟨fun hn => hu_noN (notN_trans ha_mem hn), fun n hr2 => nomatch hr2⟩
    · -- puntil_name
      intro c acc r c2 h
      simp only [run] at h
      rcases ha : cursorAccept ['E'] c with _ | c1
      · simp only [ha] at h
        rcases hr : run fuel (PCall.pname c) with ⟨r0, c1b⟩
        obtain ⟨hn_noN, hn_ok⟩ := ihname c r0 c1b hr
        cases r0 with
        | ok nd =>
          simp only [hr] at h
          cases c1b with
          | nil =>
            simp only [Prod.mk.injEq] at h
            obtain ⟨h1, h2⟩ := h; subst h1; subst h2
            exact ⟨fun hn => by simp, fun n hr2 => nomatch hr2⟩
          | cons y ys =>
            obtain ⟨hu_noN, hu_ok⟩ := ihuname (y :: ys) (acc ++ [nd]) r c2 h
            refine ⟨fun hn => hu_noN (hn_noN hn), fun n hr2 => ?_⟩
            obtain ⟨hcv, hqn⟩ := hu_ok n hr2
            constructor
            · intro hacc
              apply hcv
              rw [cvOKList_append]
              simp [hacc, (hn_ok nd rfl).1]
            · intro hn hne hacc
              apply hqn (hn_noN hn) (by simp)
              rw [qnOKList_append]
              simp [hacc, (hn_ok nd rfl).2 hn]
        | fail =>
          simp only [hr, Prod.mk.injEq] at h
          obtain ⟨h1, h2⟩ := h; subst h1; subst h2
          exact ⟨fun hn => hn_noN hn, fun n hr2 => nomatch hr2⟩
        | crash =>
          simp only [hr, Prod.mk.injEq] at h
          obtain ⟨h1, h2⟩ := h; subst h1; subst h2
          exact ⟨fun hn => hn_noN hn, fun n hr2 => nomatch hr2⟩
        | oof =>
          simp only [hr, Prod.mk.injEq] at h
          obtain ⟨h1, h2⟩ := h; subst h1; subst h2
          exact ⟨fun hn => hn_noN hn, fun n hr2 => nomatch hr2⟩
      · have ha_mem := cursorAccept_mem ha
        simp only [ha, Prod.mk.injEq] at h
        obtain ⟨h1, h2⟩ := h; subst h1; subst h2
        refine ⟨fun hn => notN_trans ha_mem hn, fun n hr2 => ?_⟩
        injection hr2 with hh
        subst hh
        constructor
        · intro hacc
          simpa [cvOK] using hacc
        · intro hn hne hacc
          cases acc with
          | nil => exact absurd rfl hne
          | cons a t => simpa [qnOK] using hacc
    · -- puntil_type
      intro c acc r c2 h
      simp only [run] at h
      rcases ha : cursorAccept ['E'] c with _ | c1
      · simp only [ha] at h
        rcases hr : run fuel (PCall.ptype c) with ⟨r0, c1b⟩
        obtain ⟨ht_noN, ht_ok⟩ := ihtype c r0 c1b hr
        cases r0 with
        | ok nd =>
          simp only [hr] at h
          cases c1b with
          | nil =>
            simp only [Prod.mk.injEq] at h
            obtain ⟨h1, h2⟩ := h; subst h1; subst h2
            exact ⟨fun hn => by simp, fun n hr2 => nomatch hr2⟩
          | cons y ys =>
            obtain ⟨hu_noN, hu_ok⟩ := ihutype (y :: ys) (acc ++ [nd]) r c2 h
            refine ⟨fun hn => hu_noN (ht_noN hn), fun n hr2 => ?_⟩
            obtain ⟨hcv, hqn⟩ := hu_ok n hr2
            constructor
            · intro hacc
              apply hcv
              rw [cvOKList_append]
              simp [hacc, (ht_ok nd rfl).1]
            · intro hn hacc
              apply hqn (ht_noN hn)
              rw [qnOKList_append]
              simp [hacc, (ht_ok nd rfl).2 hn]
        | fail =>
          simp only [hr, Prod.mk.injEq] at h
          obtain ⟨h1, h2⟩ := h; subst h1; subst h2
          exact ⟨fun hn => ht_noN hn, fun n hr2 => nomatch hr2⟩
        | crash =>
          simp only [hr, Prod.mk.injEq] at h
          obtain ⟨h1, h2⟩ := h; subst h1; subst h2
          exact ⟨fun hn => ht_noN hn, fun n hr2 => nomatch hr2⟩
        | oof =>
          simp only [hr, Prod.mk.injEq] at h
          obtain ⟨h1, h2⟩ := h; subst h1; subst h2
          exact ⟨fun hn => ht_noN hn, fun n hr2 => nomatch hr2⟩
      · have ha_mem := cursorAccept_mem ha
        simp only [ha, Prod.mk.injEq] at h
        obtain ⟨h1, h2⟩ := h; subst h1; subst h2
        refine ⟨fun hn => notN_trans ha_mem hn, fun n hr2 => ?_⟩
        injection hr2 with hh
        subst hh
        constructor
        · intro hacc
          simpa [cvOK] using hacc
        · intro hn hacc
          simpa [qnOK] using hacc
    · -- pargs
      intro nm c acc r c2 h
      cases c with
      | nil =>
        cases acc with
        | nil =>
          simp only [run, Prod.mk.injEq] at h
          obtain ⟨h1, h2⟩ := h; subst h1; subst h2
          refine ⟨fun hn => by simp, fun n hr => ?_⟩
          injection hr with hh
          subst hh
          exact ⟨fun hcv _ => hcv, fun _ hqn _ => hqn⟩
        | cons a t =>
          simp only [run, Prod.mk.injEq] at h
          obtain ⟨h1, h2⟩ := h; subst h1; subst h2
          refine ⟨fun hn => by simp, fun n hr => ?_⟩
          injection hr with hh
          subst hh
          constructor
          · intro hcv hacc
            simp [cvOK, hcv, hacc]
          · intro hn hqn hacc
            simp [qnOK, hqn, hacc]
      | cons x xs =>
        simp only [run] at h
        rcases hr : run fuel (PCall.ptype (x :: xs)) with ⟨r0, c1b⟩
        obtain ⟨ht_noN, ht_ok⟩ := ihtype (x :: xs) r0 c1b hr
        cases r0 with
        | ok t =>
          simp only [hr] at h
          obtain ⟨ha_noN, ha_ok⟩ := ihargs nm c1b (acc ++ [t]) r c2 h
          refine ⟨fun hn => ha_noN (ht_noN hn), fun n hr2 => ?_⟩
          obtain ⟨hcv, hqn⟩ := ha_ok n hr2
          constructor
          · intro hnm hacc
            apply hcv hnm
            rw [cvOKList_append]
            simp [hacc, (ht_ok t rfl).1]
          · intro hn hnm hacc
            apply hqn (ht_noN hn) hnm
            rw [qnOKList_append]
            simp [hacc, (ht_ok t rfl).2 hn]
        | fail =>
          simp only [hr, Prod.mk.injEq] at h
          obtain ⟨h1, h2⟩ := h; subst h1; subst h2
          exact ⟨fun hn => ht_noN hn, fun n hr2 => nomatch hr2⟩
        | crash =>
          simp only [hr, Prod.mk.injEq] at h
          obtain ⟨h1, h2⟩ := h; subst h1; subst h2
          exact ⟨fun hn => ht_noN hn, fun n hr2 => nomatch hr2⟩
        | oof =>
          simp only [hr, Prod.mk.injEq] at h
          obtain ⟨h1, h2⟩ := h; subst h1; subst h2
          exact ⟨fun hn => ht_noN hn, fun n hr2 => nomatch hr2⟩

/-- C6, amended: for every input that contains no nested-name introducer
character N, every qual_name node in the AST of a successful parse has a
non-empty element sequence (the nested-name production is the only source
of empty qual_name nodes, and it only fires on an N token). -/
theorem c6_amended_qual_name_nonempty :
    ∀ (s : List Char) (n : Node), 'N' ∉ s → parse s = PRes.ok n → qnOK n = true := by
  intro s n hn h
  rw [parse, _parse_mangled_name] at h
  rcases hrun : run (parseFuel s) (PCall.pmangled s) with ⟨r, c2⟩
  rw [hrun] at h
  obtain ⟨_, hok⟩ := (run_invariants (parseFuel s)).2.2.2.2.1 s r c2 hrun
  exact (hok n (by simpa using h)).2 hn

/-- Witness for the amended C6 theorem at the N-free input _Z3foo. -/
theorem c6_amended_witness : qnOK (Node.name "foo") = true :=
  c6_amended_qual_name_nonempty "_Z3foo".data (Node.name "foo") (by decide) rfl

/-- C10: _handle_cv applied to qualifier letters that contribute no
qualifiers returns the wrapped node unchanged rather than wrapping it in a
cv_qual with an empty set, and every cv_qual node in any AST returned by a
successful parse carries a non-empty qualifier set. -/
theorem c10_cv_qual_nonempty :
    (∀ (q : List Char) (node : Node), 'r' ∉ q → 'V' ∉ q → 'K' ∉ q →
      _handle_cv q node = node) ∧
    (∀ (s : List Char) (n : Node), parse s = PRes.ok n → cvOK n = true) := by
  constructor
  · intro q node h1 h2 h3
    rw [_handle_cv]
    have hq : cvQualifierSet q = [] := by simp [cvQualifierSet, h1, h2, h3]
    rw [hq]
  · intro s n h
    rw [parse, _parse_mangled_name] at h
    rcases hrun : run (parseFuel s) (PCall.pmangled s) with ⟨r, c2⟩
    rw [hrun] at h
    obtain ⟨_, hok⟩ := (run_invariants (parseFuel s)).2.2.2.2.1 s r c2 hrun
    exact (hok n (by simpa using h)).1

/-- Witness for the C10 theorem: a qualifier string with no cv letters
leaves the node unwrapped, and the cv_qual node of parse('_Z1fKi') passes
the non-empty-qualifier-set check. -/
theorem c10_witness :
    _handle_cv ['x'] (Node.name "a") = Node.name "a" ∧
    cvOK (Node.function (Node.name "f") [Node.cv_qual (Node.name "int") ["const"]]) = true :=
  ⟨c10_cv_qual_nonempty.1 ['x'] (Node.name "a") (by decide) (by decide) (by decide),
   c10_cv_qual_nonempty.2 "_Z1fKi".data
     (Node.function (Node.name "f") [Node.cv_qual (Node.name "int") ["const"]]) rfl⟩
